import Mathlib

/-!
Verification of the ordered-map core of the ATLAS library
(src/container/atMap.c++): a red-black tree mapping unique keys to values.

The C++ tree is a pointer structure with parent back-links.  The embedding
uses a purely functional tree `RBTree` together with an explicit zipper
(`PathStep` / `Path`): a focused subtree plus the list of ancestors from the
focus up to the root.  Each `PathStep` records which child the focus is of
that ancestor (`dir`), the ancestor's color, key and value, and the other
child (`sibling`).  Walking the parent pointer in C++ corresponds to
consuming one `PathStep`; `plug` rebuilds the whole tree from a zipper.

Keys and values are items with virtual `compare`/`equals` methods in C++;
here the two methods are explicit function parameters `cmp : K → K → Int`
and `beq : K → K → Bool`.
-/

set_option maxHeartbeats 1600000

namespace Atlas

/-- Node colors (`AT_MAP_RED` / `AT_MAP_BLACK`). -/
inductive Color where
  | red
  | black
deriving DecidableEq

/-- The tree of `atMapNode`s: empty (`NULL`) or a node with a color, a left
child, a key item, a value item and a right child.  Parent pointers are
represented by zipper paths rather than stored in the node. -/
inductive RBTree (K V : Type) where
  | nil
  | node (color : Color) (left : RBTree K V) (key : K) (value : V) (right : RBTree K V)
deriving DecidableEq

namespace RBTree

/-- Number of nodes of the tree. -/
def size {K V : Type} : RBTree K V → Nat
  | nil => 0
  | node _ l _ _ r => size l + size r + 1

end RBTree

open RBTree

/-- Which child of its parent a node is (`AT_MAP_LEFTCHILD` / `AT_MAP_RIGHTCHILD`;
`AT_MAP_ROOTNODE` corresponds to an empty path). -/
inductive Dir where
  | left
  | right
deriving DecidableEq

/-- One ancestor on the path from a focused subtree to the root: the focus is
the `dir` child of a node with this `color`, `key` and `value`, whose other
child is `sibling`. -/
structure PathStep (K V : Type) where
  dir : Dir
  color : Color
  key : K
  value : V
  sibling : RBTree K V
deriving DecidableEq

/-- A path from a focused position to the root, innermost ancestor first. -/
abbrev Path (K V : Type) := List (PathStep K V)

/-- Reattach a focused subtree below one ancestor. -/
def attachStep {K V : Type} (t : RBTree K V) (s : PathStep K V) : RBTree K V :=
  match s.dir with
  | Dir.left => RBTree.node s.color t s.key s.value s.sibling
  | Dir.right => RBTree.node s.color s.sibling s.key s.value t

/-- Rebuild the whole tree from a zipper. -/
def plug {K V : Type} (t : RBTree K V) : Path K V → RBTree K V
  | [] => t
  | s :: rest => plug (attachStep t s) rest

/-- `node && node->color == AT_MAP_RED` on a possibly null node pointer. -/
def isRed {K V : Type} : RBTree K V → Bool
  | RBTree.node Color.red _ _ _ _ => true
  | _ => false

/-- Overwrite the color of the root node (`t->color = c`); no-op on `NULL`,
matching the guarded `if (treeRoot) treeRoot->color = AT_MAP_BLACK`. -/
def setRootColor {K V : Type} (t : RBTree K V) (c : Color) : RBTree K V :=
  match t with
  | RBTree.nil => RBTree.nil
  | RBTree.node _ l k v r => RBTree.node c l k v r

/-- In-order list of (key, value) pairs stored in the tree. -/
def entries {K V : Type} : RBTree K V → List (K × V)
  | RBTree.nil => []
  | RBTree.node _ l k v r => entries l ++ (k, v) :: entries r

/-- In-order list of keys. -/
def keys {K V : Type} (t : RBTree K V) : List K := (entries t).map Prod.fst

/-- In-order list of values. -/
def vals {K V : Type} (t : RBTree K V) : List V := (entries t).map Prod.snd

/-- The `atMap` object: the owning root reference and the tracked entry
count (`treeRoot`, `treeSize`). -/
structure atMap (K V : Type) where
  treeRoot : RBTree K V
  treeSize : Nat
deriving DecidableEq

/-- The `atMap()` constructor: no root node and no nodes. -/
def atMap.empty {K V : Type} : atMap K V := ⟨RBTree.nil, 0⟩

section Ops

variable {K V : Type} (cmp : K → K → Int) (beq : K → K → Bool)

/-- `atMap::findNode` (atMap.c++ lines 335-352): searches the subtree for a
node with the given key; returns that node (as the subtree it roots), or
`none` (`NULL`).  If `node->nodeKey->equals(key)` the node is returned;
otherwise the search continues right if `key->compare(node->nodeKey) > 0`,
else left. -/
def findNode : RBTree K V → K → Option (RBTree K V)
  | RBTree.nil, _ => none
  | RBTree.node c l k v r, key =>
    if beq k key then some (RBTree.node c l k v r)
    else if cmp key k > 0 then findNode r key
    else findNode l key

/-- `atMap::containsKey` (lines 225-232): whether `findNode` found a node. -/
def containsKey (m : atMap K V) (key : K) : Bool :=
  (findNode cmp beq m.treeRoot key).isSome

/-- `atMap::getNumEntries` (lines 216-219). -/
def getNumEntries {K V : Type} (m : atMap K V) : Nat := m.treeSize

/-- `atMap::getValue` (lines 238-249): the value of the node found by
`findNode`, or `NULL`. -/
def getValue (m : atMap K V) (key : K) : Option V :=
  match findNode cmp beq m.treeRoot key with
  | some (RBTree.node _ _ _ v _) => some v
  | _ => none

/-- `findNode` again, but returning the found node as a zipper (the node's
subtree plus the path to the root).  This is the same search as `findNode`;
the path records the parent chain that the C++ node already carries via its
`parent` pointers. -/
def findNodeZ : RBTree K V → K → Option (RBTree K V × Path K V)
  | RBTree.nil, _ => none
  | RBTree.node c l k v r, key =>
    if beq k key then some (RBTree.node c l k v r, [])
    else if cmp key k > 0 then
      (findNodeZ r key).map (fun fp => (fp.1, fp.2 ++ [⟨Dir.right, c, k, v, l⟩]))
    else
      (findNodeZ l key).map (fun fp => (fp.1, fp.2 ++ [⟨Dir.left, c, k, v, r⟩]))

/-- `atMap::changeValue` (lines 256-271): locate the node with `findNode`;
if absent return `NULL` and change nothing; otherwise store the new value in
the node and return the old value. -/
def changeValue (m : atMap K V) (key : K) (newValue : V) : Option V × atMap K V :=
  match findNodeZ cmp beq m.treeRoot key with
  | none => (none, m)
  | some (RBTree.node c l k v r, path) =>
    (some v, ⟨plug (RBTree.node c l k newValue r) path, m.treeSize⟩)
  | some (RBTree.nil, _) => (none, m)

end Ops

/-- The `while (result->leftChild) result = result->leftChild` loop of
`atMap::getInorderSuccessor`. -/
def leftmostNode {K V : Type} : RBTree K V → RBTree K V
  | RBTree.node c (RBTree.node lc ll lk lv lr) k v r =>
    leftmostNode (RBTree.node lc ll lk lv lr)
  | t => t

/-- `atMap::getInorderSuccessor` (lines 776-790): `NULL` if the node has no
right child, otherwise the node with the smallest key in the right subtree. -/
def getInorderSuccessor {K V : Type} : RBTree K V → Option (RBTree K V)
  | RBTree.node _ _ _ _ (RBTree.node rc rl rk rv rr) =>
    some (leftmostNode (RBTree.node rc rl rk rv rr))
  | _ => none

/-- The descent of `getInorderSuccessor`, as a zipper: the leftmost node of
`t` together with the (left-only) path from it back to the root of `t`. -/
def leftmostZ {K V : Type} : RBTree K V → RBTree K V × Path K V
  | RBTree.nil => (RBTree.nil, [])
  | RBTree.node c RBTree.nil k v r => (RBTree.node c RBTree.nil k v r, [])
  | RBTree.node c (RBTree.node lc ll lk lv lr) k v r =>
    let p := leftmostZ (RBTree.node lc ll lk lv lr)
    (p.1, p.2 ++ [⟨Dir.left, c, k, v, r⟩])

/-- `atMap::rotateLeft` (lines 807-844) on the subtree rooted at the given
node.  Colors travel with the nodes; parent relinking is implicit in the
zipper representation.  If the node has no right child the source reports an
internal-consistency error (`AT_ERROR`) and returns without changing the
tree; this is the fall-through branch. -/
def rotateLeft {K V : Type} : RBTree K V → RBTree K V
  | RBTree.node c l k v (RBTree.node rc rl rk rv rr) =>
    RBTree.node rc (RBTree.node c l k v rl) rk rv rr
  | t => t

/-- `atMap::rotateRight` (lines 861-898), mirror of `rotateLeft`. -/
def rotateRight {K V : Type} : RBTree K V → RBTree K V
  | RBTree.node c (RBTree.node lc ll lk lv lr) k v r =>
    RBTree.node lc ll lk lv (RBTree.node c lr k v r)
  | t => t

/-- After the final `rotateRight(grandparent)` of `rebalanceInsert`'s
left-parent branch, the variable `parent` points at the new subtree root and
`grandparent` at its right child; `parent->color = AT_MAP_BLACK;
grandparent->color = AT_MAP_RED` recolors exactly those two nodes. -/
def recolorTopRight {K V : Type} : RBTree K V → RBTree K V
  | RBTree.node _ l k v (RBTree.node _ rl rk rv rr) =>
    RBTree.node Color.black l k v (RBTree.node Color.red rl rk rv rr)
  | t => t

/-- Mirror of `recolorTopRight` for the right-parent branch: after
`rotateLeft(grandparent)`, `parent` is the new subtree root and
`grandparent` its left child. -/
def recolorTopLeft {K V : Type} : RBTree K V → RBTree K V
  | RBTree.node _ (RBTree.node _ ll lk lv lr) k v r =>
    RBTree.node Color.black (RBTree.node Color.red ll lk lv lr) k v r
  | t => t

/-- `atMap::rebalanceInsert` (lines 360-440), on a zipper.  The focus `t` is
the subtree rooted at the C++ argument `node`; `path` is its parent chain.
The early returns (`node` black, no parent, parent black, no grandparent)
leave the tree as it stands, i.e. plug the focus back in.  If the uncle
(grandparent's other child) is red, parent and uncle are recolored black and
grandparent red, and the walk recurses at the grandparent.  Otherwise at most
one rotation at the parent followed by one rotation at the grandparent and a
parent/grandparent color swap repair the red-red violation. -/
def rebalanceInsert {K V : Type} (t : RBTree K V) (path : Path K V) : RBTree K V :=
  if isRed t = false then plug t path
  else
    match path with
      | [] => t
      | pstep :: rest =>
        if pstep.color = Color.black then plug t (pstep :: rest)
        else
          match rest with
          | [] => plug t (pstep :: rest)
          | gstep :: rest2 =>
            if isRed gstep.sibling then
              -- uncle red: grandparent red, parent black, uncle black; iterate
              rebalanceInsert
                (attachStep
                  (attachStep t ⟨pstep.dir, Color.black, pstep.key, pstep.value, pstep.sibling⟩)
                  ⟨gstep.dir, Color.red, gstep.key, gstep.value,
                    setRootColor gstep.sibling Color.black⟩)
                rest2
            else
              match gstep.dir with
              | Dir.left =>
                -- parent is a left child: force node to be a left child too,
                -- then rotate right at grandparent and swap colors
                let psub := attachStep t pstep
                let psub2 := if pstep.dir = Dir.right then rotateLeft psub else psub
                plug
                  (recolorTopRight
                    (rotateRight
                      (RBTree.node gstep.color psub2 gstep.key gstep.value gstep.sibling)))
                  rest2
              | Dir.right =>
                -- mirror image
                let psub := attachStep t pstep
                let psub2 := if pstep.dir = Dir.left then rotateRight psub else psub
                plug
                  (recolorTopLeft
                    (rotateLeft
                      (RBTree.node gstep.color gstep.sibling gstep.key gstep.value psub2)))
                  rest2

section Insert

variable {K V : Type} (cmp : K → K → Int) (beq : K → K → Bool)

/-- The binary-search placement loop of `atMap::addEntry` (lines 90-131), as
a zipper builder: starting at the (non-empty) root, branch left when
`newNode->nodeKey->compare(nodeParent->nodeKey) < 0` and right otherwise,
until a `NULL` child slot is found.  Returns the path from the new node's
slot to the root, together with whether the key-collision warning
(`newNode->nodeKey->equals(nodeParent->nodeKey)` while taking a right
branch, lines 113-115) fired at least once. -/
def insertDescent (key : K) : RBTree K V → Path K V × Bool
  | RBTree.nil => ([], false)
  | RBTree.node c l k v r =>
    if cmp key k < 0 then
      match l with
      | RBTree.nil => ([⟨Dir.left, c, k, v, r⟩], false)
      | RBTree.node lc ll lk lv lr =>
        let p := insertDescent key (RBTree.node lc ll lk lv lr)
        (p.1 ++ [⟨Dir.left, c, k, v, r⟩], p.2)
    else
      match r with
      | RBTree.nil => ([⟨Dir.right, c, k, v, l⟩], beq key k)
      | RBTree.node rc rl rk rv rr =>
        let p := insertDescent key (RBTree.node rc rl rk rv rr)
        (p.1 ++ [⟨Dir.right, c, k, v, l⟩], beq key k || p.2)

/-- `atMap::addEntry` (lines 58-140).  Returns (success, new map, whether the
key-collision warning fired).  Fails without mutation if `containsKey`; an
empty tree gets the new node as a black root; otherwise the new node is
attached red at the slot found by the descent, `rebalanceInsert` runs from
it, the root is forced black, and `treeSize` is incremented. -/
def addEntry (m : atMap K V) (key : K) (value : V) : Bool × atMap K V × Bool :=
  if containsKey cmp beq m key then (false, m, false)
  else
    match m.treeRoot with
    | RBTree.nil =>
      (true, ⟨RBTree.node Color.black RBTree.nil key value RBTree.nil, m.treeSize + 1⟩, false)
    | RBTree.node c l k v r =>
      let dp := insertDescent cmp beq key (RBTree.node c l k v r)
      let t1 := rebalanceInsert (RBTree.node Color.red RBTree.nil key value RBTree.nil) dp.1
      (true, ⟨setRootColor t1 Color.black, m.treeSize + 1⟩, dp.2)

end Insert

/-- Outcome of the sibling-cases block of `atMap::rebalanceDelete`: either
the sibling was recolored red and the walk must continue one level up
(`more` carries the recolored sibling), or rotations and recoloring fixed
the black-deficit and `done` carries the finished subtree that now occupies
the parent's old position. -/
inductive DelStep (K V : Type) where
  | more (sib : RBTree K V)
  | done (sub : RBTree K V)

/-- The two terminal cases of `rebalanceDelete`'s left branch (lines
492-528), for a gap on the LEFT of the parent.  `x` is the child occupying
the gap, `pc`/`pk`/`pv` the parent's color, key and value, and
`s1`/`sk`/`sv`/`s2` the (non-null) sibling's left child, key, value and
right child.  If both of the sibling's children are black or absent, the
sibling is recolored red and the deficit moves up (`more`).  Otherwise: if
the sibling's left child is red it is rotated to the outside first; then
`rotateLeft(parent)` runs, the sibling takes the parent's old color, and
parent and the outer nephew become black (`done`). -/
def rbDelCaseL {K V : Type} (x : RBTree K V) (pc : Color) (pk : K) (pv : V)
    (s1 : RBTree K V) (sk : K) (sv : V) (s2 : RBTree K V) : DelStep K V :=
  if isRed s1 = false ∧ isRed s2 = false then
    DelStep.more (RBTree.node Color.red s1 sk sv s2)
  else
    match s1 with
    | RBTree.node Color.red a ak av b =>
      -- inner red child: recolor and rotateRight(sibling), then the final
      -- rotateLeft(parent) and three-way recolor
      DelStep.done
        (RBTree.node pc (RBTree.node Color.black x pk pv a) ak av
          (RBTree.node Color.black b sk sv s2))
    | _ =>
      -- sibling's right child is red: rotateLeft(parent) and recolor
      DelStep.done
        (RBTree.node pc (RBTree.node Color.black x pk pv s1) sk sv
          (setRootColor s2 Color.black))

/-- Mirror of `rbDelCaseL` (lines 545-581), for a gap on the RIGHT of the
parent; the sibling is the parent's left child with children `s1`/`s2`. -/
def rbDelCaseR {K V : Type} (x : RBTree K V) (pc : Color) (pk : K) (pv : V)
    (s1 : RBTree K V) (sk : K) (sv : V) (s2 : RBTree K V) : DelStep K V :=
  if isRed s1 = false ∧ isRed s2 = false then
    DelStep.more (RBTree.node Color.red s1 sk sv s2)
  else
    match s2 with
    | RBTree.node Color.red c rk rv d =>
      DelStep.done
        (RBTree.node pc (RBTree.node Color.black s1 sk sv c) rk rv
          (RBTree.node Color.black d pk pv x))
    | _ =>
      DelStep.done
        (RBTree.node pc (setRootColor s1 Color.black) sk sv
          (RBTree.node Color.black s2 pk pv x))

/-- `atMap::rebalanceDelete` (lines 450-583) on a zipper.  `x` is the child
now occupying the gap left by a deleted black node (possibly `NULL`), `path`
the chain from the gap's parent to the root.  An empty path is the
`AT_MAP_ROOTNODE` case.  If `x` exists and is red it is recolored black.
Otherwise the sibling (`pstep.sibling`) is consulted: a red sibling is first
rotated into the parent position and recolored (extending the parent chain
by the former sibling, now black), after which `rbDelCaseL`/`rbDelCaseR`
decide whether to recolor-and-recurse or rotate-and-finish.  A `NULL`
sibling would be dereferenced by the C++ (the source comments that it cannot
occur when the tree was black-balanced); those arms just reassemble the
tree. -/
def rebalanceDelete {K V : Type} : RBTree K V → Path K V → RBTree K V
  | x, [] => x
  | x, pstep :: rest =>
    if h : isRed x then plug (setRootColor x Color.black) (pstep :: rest)
    else
      match pstep.dir with
      | Dir.left =>
        match pstep.sibling with
        | RBTree.nil => plug x (pstep :: rest)
        | RBTree.node Color.red sl sk sv sr =>
          -- red sibling: rotateLeft(parent), parent red, sibling black,
          -- re-fetch sibling (now `sl`)
          match sl with
          | RBTree.nil =>
            plug (RBTree.node Color.red x pstep.key pstep.value RBTree.nil)
              (⟨Dir.left, Color.black, sk, sv, sr⟩ :: rest)
          | RBTree.node _ a ak av b =>
            match rbDelCaseL x Color.red pstep.key pstep.value a ak av b with
            | DelStep.more sib2 =>
              rebalanceDelete (RBTree.node Color.red x pstep.key pstep.value sib2)
                (⟨Dir.left, Color.black, sk, sv, sr⟩ :: rest)
            | DelStep.done sub =>
              plug sub (⟨Dir.left, Color.black, sk, sv, sr⟩ :: rest)
        | RBTree.node Color.black s1 sk sv s2 =>
          match rbDelCaseL x pstep.color pstep.key pstep.value s1 sk sv s2 with
          | DelStep.more sib2 =>
            rebalanceDelete (RBTree.node pstep.color x pstep.key pstep.value sib2) rest
          | DelStep.done sub => plug sub rest
      | Dir.right =>
        match pstep.sibling with
        | RBTree.nil => plug x (pstep :: rest)
        | RBTree.node Color.red sl sk sv sr =>
          -- red sibling: rotateRight(parent), parent red, sibling black,
          -- re-fetch sibling (now `sr`)
          match sr with
          | RBTree.nil =>
            plug (RBTree.node Color.red RBTree.nil pstep.key pstep.value x)
              (⟨Dir.right, Color.black, sk, sv, sl⟩ :: rest)
          | RBTree.node _ c rk rv d =>
            match rbDelCaseR x Color.red pstep.key pstep.value c rk rv d with
            | DelStep.more sib2 =>
              rebalanceDelete (RBTree.node Color.red sib2 pstep.key pstep.value x)
                (⟨Dir.right, Color.black, sk, sv, sl⟩ :: rest)
            | DelStep.done sub =>
              plug sub (⟨Dir.right, Color.black, sk, sv, sl⟩ :: rest)
        | RBTree.node Color.black s1 sk sv s2 =>
          match rbDelCaseR x pstep.color pstep.key pstep.value s1 sk sv s2 with
          | DelStep.more sib2 =>
            rebalanceDelete (RBTree.node pstep.color sib2 pstep.key pstep.value x) rest
          | DelStep.done sub => plug sub rest
termination_by x path => 2 * path.length + (if isRed x then 0 else 1)
decreasing_by
  all_goals simp_all only [isRed, List.length_cons, Bool.not_eq_true, if_neg, Bool.false_eq_true,
    not_false_eq_true, if_true, if_false]
  all_goals first
  | omega
  | (split <;> omega)

/-- `(leftmostZ t).1.size ≤ t.size` (needed for `deleteNode` termination). -/
theorem leftmostZ_size_le {K V : Type} : ∀ t : RBTree K V, (leftmostZ t).1.size ≤ t.size
  | RBTree.nil => Nat.le_refl _
  | RBTree.node _ RBTree.nil _ _ _ => Nat.le_refl _
  | RBTree.node c (RBTree.node lc ll lk lv lr) k v r => by
    have h := leftmostZ_size_le (RBTree.node lc ll lk lv lr)
    simp only [leftmostZ, RBTree.size] at h ⊢
    omega

/-- `atMap::deleteNode` (lines 590-679) on a zipper: the focus `t` is the
node to delete, `path` its parent chain; the whole resulting tree is
returned.  No children: the parent's link is cleared and, if the removed
node was black, `rebalanceDelete` runs at the gap.  One child: the child is
spliced into the removed node's position, with the same rebalance condition.
Two children: the key and value pairs are swapped with the in-order
successor (the leftmost node of the right subtree) and the same removal is
applied recursively to the successor node.  (The destruction of the removed
key and value items is memory management with no counterpart in the
functional model.) -/
def deleteNode {K V : Type} : RBTree K V → Path K V → RBTree K V
  | RBTree.nil, path => plug RBTree.nil path
  | RBTree.node c RBTree.nil _ _ RBTree.nil, path =>
    if c = Color.black then rebalanceDelete RBTree.nil path else plug RBTree.nil path
  | RBTree.node c (RBTree.node lc ll lk lv lr) _ _ RBTree.nil, path =>
    if c = Color.black then rebalanceDelete (RBTree.node lc ll lk lv lr) path
    else plug (RBTree.node lc ll lk lv lr) path
  | RBTree.node c RBTree.nil _ _ (RBTree.node rc rl rk rv rr), path =>
    if c = Color.black then rebalanceDelete (RBTree.node rc rl rk rv rr) path
    else plug (RBTree.node rc rl rk rv rr) path
  | RBTree.node c (RBTree.node lc ll lk lv lr) k v (RBTree.node rc rl rk rv rr), path =>
    match h : leftmostZ (RBTree.node rc rl rk rv rr) with
    | (RBTree.node sc RBTree.nil sk sv sr, sp) =>
      -- swap (k,v) with the successor's (sk,sv), then delete the successor
      deleteNode (RBTree.node sc RBTree.nil k v sr)
        (sp ++ ⟨Dir.right, c, sk, sv, RBTree.node lc ll lk lv lr⟩ :: path)
    | (_, _) =>
      plug (RBTree.node c (RBTree.node lc ll lk lv lr) k v (RBTree.node rc rl rk rv rr)) path
termination_by t _ => t.size
decreasing_by
  have hle := leftmostZ_size_le (RBTree.node rc rl rk rv rr)
  rw [h] at hle
  simp only [RBTree.size] at hle ⊢
  omega

/-- `atMap::removeNode` (lines 688-769): structurally identical to
`deleteNode` — the C++ bodies differ only in that `removeNode` does not
destroy the detached node's key and value items, which is memory management
with no counterpart in the functional model. -/
def removeNode {K V : Type} : RBTree K V → Path K V → RBTree K V
  | RBTree.nil, path => plug RBTree.nil path
  | RBTree.node c RBTree.nil _ _ RBTree.nil, path =>
    if c = Color.black then rebalanceDelete RBTree.nil path else plug RBTree.nil path
  | RBTree.node c (RBTree.node lc ll lk lv lr) _ _ RBTree.nil, path =>
    if c = Color.black then rebalanceDelete (RBTree.node lc ll lk lv lr) path
    else plug (RBTree.node lc ll lk lv lr) path
  | RBTree.node c RBTree.nil _ _ (RBTree.node rc rl rk rv rr), path =>
    if c = Color.black then rebalanceDelete (RBTree.node rc rl rk rv rr) path
    else plug (RBTree.node rc rl rk rv rr) path
  | RBTree.node c (RBTree.node lc ll lk lv lr) k v (RBTree.node rc rl rk rv rr), path =>
    match h : leftmostZ (RBTree.node rc rl rk rv rr) with
    | (RBTree.node sc RBTree.nil sk sv sr, sp) =>
      removeNode (RBTree.node sc RBTree.nil k v sr)
        (sp ++ ⟨Dir.right, c, sk, sv, RBTree.node lc ll lk lv lr⟩ :: path)
    | (_, _) =>
      plug (RBTree.node c (RBTree.node lc ll lk lv lr) k v (RBTree.node rc rl rk rv rr)) path
termination_by t _ => t.size
decreasing_by
  have hle := leftmostZ_size_le (RBTree.node rc rl rk rv rr)
  rw [h] at hle
  simp only [RBTree.size] at hle ⊢
  omega

section Delete

variable {K V : Type} (cmp : K → K → Int) (beq : K → K → Bool)

/-- `atMap::deleteEntry` (lines 146-168): find the node (abort with `false`
if absent), delete it, force the root black, decrement `treeSize`.
(`treeSize` is a `u_long` in C++; on the success path the tree is non-empty
so the decrement never wraps.) -/
def deleteEntry (m : atMap K V) (key : K) : Bool × atMap K V :=
  match findNodeZ cmp beq m.treeRoot key with
  | none => (false, m)
  | some fp =>
    (true, ⟨setRootColor (deleteNode fp.1 fp.2) Color.black, m.treeSize - 1⟩)

/-- `atMap::removeEntry` (lines 175-211): like `deleteEntry` but returns the
removed node's value (`NULL` if the key is absent) instead of destroying it.
The conditional `delete targetKey` on the stored key (when the caller's key
is a different object identity) is memory management outside the model. -/
def removeEntry (m : atMap K V) (key : K) : Option V × atMap K V :=
  match findNodeZ cmp beq m.treeRoot key with
  | none => (none, m)
  | some fp =>
    (match fp.1 with
     | RBTree.node _ _ _ v _ => some v
     | RBTree.nil => none,
     ⟨setRootColor (removeNode fp.1 fp.2) Color.black, m.treeSize - 1⟩)

end Delete

/-- `atMap::fillLists` (lines 952-969): in-order traversal appending each
node's key and value to the respective output list; a `none` list stands for
a `NULL` list pointer, to which nothing is appended. -/
def fillLists {K V : Type} :
    RBTree K V → Option (List K) → Option (List V) → Option (List K) × Option (List V)
  | RBTree.nil, kl, vl => (kl, vl)
  | RBTree.node _ l k v r, kl, vl =>
    let p := fillLists l kl vl
    fillLists r (p.1.map (fun xs => xs ++ [k])) (p.2.map (fun xs => xs ++ [v]))

/-- Length of an optional list (`getNumEntries` on a possibly-null list). -/
def optLen {α : Type} : Option (List α) → Nat
  | some l => l.length
  | none => 0

/-- `atMap::getSortedList` (lines 296-328): returns immediately when
`treeSize == 0`; otherwise fills the lists and runs the consistency check,
comparing the key list's length (or, when the key list is `NULL`, the value
list's length) against `treeSize`.  The Bool result records whether the
`AT_ERROR` map-inconsistency diagnostic fired. -/
def getSortedList {K V : Type} (m : atMap K V)
    (keyList : Option (List K)) (valueList : Option (List V)) :
    (Option (List K) × Option (List V)) × Bool :=
  if m.treeSize = 0 then ((keyList, valueList), false)
  else
    let p := fillLists m.treeRoot keyList valueList
    let err :=
      if keyList.isSome then optLen p.1 != m.treeSize
      else if valueList.isSome then optLen p.2 != m.treeSize
      else false
    (p, err)

/-! ## Specification-side definitions -/

/-- Root color of a tree (`NULL` counts as black, as in the red-black rules). -/
def rootColor {K V : Type} : RBTree K V → Color
  | RBTree.nil => Color.black
  | RBTree.node c _ _ _ _ => c

/-- Combined well-formedness of a red-black subtree: `IsRB t c h` means `t`
has root color `c`, black-height `h`, no red node with a red child, and
every path to an empty child passes `h` black nodes. -/
inductive IsRB {K V : Type} : RBTree K V → Color → Nat → Prop where
  | nil : IsRB RBTree.nil Color.black 0
  | red {l r : RBTree K V} {k : K} {v : V} {h : Nat} :
      IsRB l Color.black h → IsRB r Color.black h →
      IsRB (RBTree.node Color.red l k v r) Color.red h
  | black {l r : RBTree K V} {k : K} {v : V} {cl cr : Color} {h : Nat} :
      IsRB l cl h → IsRB r cr h →
      IsRB (RBTree.node Color.black l k v r) Color.black (h + 1)

/-- Executable black-balance check: the black-height of the tree if every
root-to-empty path passes the same number of black nodes, else `none`. -/
def blackHeightOk {K V : Type} : RBTree K V → Option Nat
  | RBTree.nil => some 0
  | RBTree.node c l _ _ r =>
    match blackHeightOk l, blackHeightOk r with
    | some hl, some hr =>
      if hl = hr then some (hl + (if c = Color.black then 1 else 0)) else none
    | _, _ => none

/-- Executable check of invariant 4: no red node has a red child (equivalently,
no red node has a red parent). -/
def noRedRedB {K V : Type} : RBTree K V → Bool
  | RBTree.nil => true
  | RBTree.node c l _ _ r =>
    (c != Color.red || (!isRed l && !isRed r)) && noRedRedB l && noRedRedB r

/-- Executable check of invariant 3: the root, if present, is black. -/
def rootBlackB {K V : Type} (t : RBTree K V) : Bool := !isRed t

/-- Executable check of invariant 1 (BST ordering, as stated in the spec):
for every node, all keys in its left subtree compare less than its key, and
all keys in its right subtree compare greater or equal. -/
def isBSTB {K V : Type} (cmp : K → K → Int) : RBTree K V → Bool
  | RBTree.nil => true
  | RBTree.node _ l k _ r =>
    (keys l).all (fun x => decide (cmp x k < 0)) &&
    (keys r).all (fun x => decide (cmp x k ≥ 0)) &&
    isBSTB cmp l && isBSTB cmp r

/-- Executable pairwise check on a list. -/
def pairwiseB {α : Type} (p : α → α → Bool) : List α → Bool
  | [] => true
  | a :: rest => rest.all (p a) && pairwiseB p rest

/-- Executable check of invariant 2: no two distinct nodes hold keys that are
equal under the equality test. -/
def uniqueKeysB {K V : Type} (beq : K → K → Bool) (t : RBTree K V) : Bool :=
  pairwiseB (fun a b => !beq a b && !beq b a) (keys t)

/-- The in-order key list is strictly ascending under `cmp` (pairwise, hence
in particular adjacent). -/
def SortedKeys {K V : Type} (cmp : K → K → Int) (t : RBTree K V) : Prop :=
  List.Pairwise (fun a b => cmp a b < 0) (keys t)

/-- Laws the three-way comparison of an item class is expected to satisfy:
`compare` orders items like a strict weak order whose induced equivalence
(`compare = 0`) is a congruence for further comparisons. -/
structure CmpLaws {K : Type} (cmp : K → K → Int) : Prop where
  asymm : ∀ a b, cmp a b < 0 ↔ cmp b a > 0
  lt_trans : ∀ a b c, cmp a b < 0 → cmp b c < 0 → cmp a c < 0
  eq_congr : ∀ a b c, cmp a b = 0 → cmp a c = cmp b c

/-- Black height contributed by an ancestor node of the given color. -/
def stepHeight {K V : Type} (s : PathStep K V) (h : Nat) : Nat :=
  match s.color with
  | Color.black => h + 1
  | Color.red => h

/-- `PathRBc p h hr nb`: the context `p` is a valid red-black context for a
hole of black-height `h`, producing a whole tree of black-height `hr`; every
ancestor's sibling is a well-formed red-black subtree of the right height, a
red ancestor has a black sibling-side child and a black parent — where the
parent of the outermost ancestor (the root) lies outside the list, in which
case the proposition `nb` must hold for a red outermost ancestor. -/
def PathRBc {K V : Type} : Path K V → Nat → Nat → Prop → Prop
  | [], h, hr, _ => h = hr
  | s :: rest, h, hr, nb =>
    (∃ cs, IsRB s.sibling cs h ∧ (s.color = Color.red → cs = Color.black)) ∧
    (s.color = Color.red →
      (match rest with
       | [] => nb
       | s2 :: _ => s2.color = Color.black)) ∧
    PathRBc rest (stepHeight s h) hr nb

/-- A context cut out of a full red-black tree (whose root is black). -/
def PathRB {K V : Type} (p : Path K V) (h hr : Nat) : Prop := PathRBc p h hr False

/-- The first (innermost) ancestor of the path is black; `False` for an
empty path. -/
def headIsBlack {K V : Type} : Path K V → Prop
  | [] => False
  | s :: _ => s.color = Color.black

/-- `headBlackOr p nb`: the first ancestor of `p` is black, or `p` is empty
and `nb` holds — the link condition for appending contexts. -/
def headBlackOr {K V : Type} : Path K V → Prop → Prop
  | [], nb => nb
  | s :: _, _ => s.color = Color.black

/-- Compatibility of a focus root color with its context: a red innermost
ancestor requires a black focus (no red-red edge across the cut). -/
def compatC {K V : Type} : Path K V → Color → Prop
  | [], _ => True
  | s :: _, c => s.color = Color.red → c = Color.black

/-- A red focus requires an existing black innermost ancestor. -/
def redFocusOk {K V : Type} (c : Color) (p : Path K V) : Prop :=
  c = Color.red → headIsBlack p

/-- The entries contributed by a context strictly to the left of the hole,
in order. -/
def pathEL {K V : Type} : Path K V → List (K × V)
  | [] => []
  | s :: rest =>
    match s.dir with
    | Dir.left => pathEL rest
    | Dir.right => pathEL rest ++ entries s.sibling ++ [(s.key, s.value)]

/-- The entries contributed by a context strictly to the right of the hole,
in order. -/
def pathER {K V : Type} : Path K V → List (K × V)
  | [] => []
  | s :: rest =>
    match s.dir with
    | Dir.left => (s.key, s.value) :: entries s.sibling ++ pathER rest
    | Dir.right => pathER rest

/-- Fold a list of (key, value) pairs into a map with `addEntry`. -/
def applyAdds {K V : Type} (cmp : K → K → Int) (beq : K → K → Bool)
    (m : atMap K V) (l : List (K × V)) : atMap K V :=
  l.foldl (fun m kv => (addEntry cmp beq m kv.1 kv.2).2.1) m

/-- The integer item comparison (used to instantiate witnesses): three-way
compare. -/
def intCmp (a b : Int) : Int := if a < b then -1 else if b < a then 1 else 0

/-- The integer item equality test (used to instantiate witnesses). -/
def intBeq (a b : Int) : Bool := a == b


/-! ## Toolkit: plugging, entries, and red-black validity -/

theorem plug_append {K V : Type} :
    ∀ (p q : Path K V) (t : RBTree K V), plug t (p ++ q) = plug (plug t p) q
  | [], _, _ => rfl
  | _ :: rest, q, t => plug_append rest q _

theorem entries_attach_left {K V : Type} (t : RBTree K V) (s : PathStep K V)
    (hd : s.dir = Dir.left) :
    entries (attachStep t s) = entries t ++ (s.key, s.value) :: entries s.sibling := by
  simp [attachStep, hd, entries]

theorem entries_attach_right {K V : Type} (t : RBTree K V) (s : PathStep K V)
    (hd : s.dir = Dir.right) :
    entries (attachStep t s) = entries s.sibling ++ (s.key, s.value) :: entries t := by
  simp [attachStep, hd, entries]

theorem entries_plug {K V : Type} :
    ∀ (p : Path K V) (t : RBTree K V),
      entries (plug t p) = pathEL p ++ entries t ++ pathER p
  | [], t => by simp [plug, pathEL, pathER]
  | s :: rest, t => by
    cases hd : s.dir with
    | left =>
      rw [plug, entries_plug rest, entries_attach_left t s hd]
      simp [pathEL, pathER, hd]
    | right =>
      rw [plug, entries_plug rest, entries_attach_right t s hd]
      simp [pathEL, pathER, hd]

theorem pathEL_append {K V : Type} :
    ∀ (p q : Path K V), pathEL (p ++ q) = pathEL q ++ pathEL p
  | [], q => by simp [pathEL]
  | s :: rest, q => by
    cases hd : s.dir with
    | left => simp [pathEL, hd, pathEL_append rest q]
    | right => simp [pathEL, hd, pathEL_append rest q]

theorem pathER_append {K V : Type} :
    ∀ (p q : Path K V), pathER (p ++ q) = pathER p ++ pathER q
  | [], q => by simp [pathER]
  | s :: rest, q => by
    cases hd : s.dir with
    | left => simp [pathER, hd, pathER_append rest q]
    | right => simp [pathER, hd, pathER_append rest q]

theorem entries_setRootColor {K V : Type} (t : RBTree K V) (c : Color) :
    entries (setRootColor t c) = entries t := by
  cases t <;> rfl

theorem setRootColor_nil_iff {K V : Type} (t : RBTree K V) (c : Color) :
    setRootColor t c = RBTree.nil ↔ t = RBTree.nil := by
  cases t <;> simp [setRootColor]

/-- Keys/values are irrelevant to red-black validity. -/
theorem IsRB.retag {K V : Type} {c0 : Color} {l r : RBTree K V} {k : K} {v : V}
    {c : Color} {h : Nat} (hrb : IsRB (RBTree.node c0 l k v r) c h)
    (k2 : K) (v2 : V) : IsRB (RBTree.node c0 l k2 v2 r) c h := by
  cases hrb with
  | red hl hr => exact IsRB.red hl hr
  | black hl hr => exact IsRB.black hl hr

theorem IsRB.rootColor_eq {K V : Type} {t : RBTree K V} {c : Color} {h : Nat}
    (hrb : IsRB t c h) : rootColor t = c := by
  cases hrb <;> rfl

theorem isRed_eq_true {K V : Type} {t : RBTree K V} {c : Color} {h : Nat}
    (hrb : IsRB t c h) : isRed t = true ↔ c = Color.red := by
  cases hrb <;> simp [isRed]

/-- A subtree of positive black-height that is black-rooted is a node;
more generally a valid subtree of height `h + 1` cannot be `nil`. -/
theorem IsRB.ne_nil_of_pos {K V : Type} {t : RBTree K V} {c : Color} {h : Nat}
    (hrb : IsRB t c (h + 1)) : t ≠ RBTree.nil := by
  intro he; subst he; cases hrb

theorem IsRB.setBlack_of_red {K V : Type} {t : RBTree K V} {h : Nat}
    (hrb : IsRB t Color.red h) :
    IsRB (setRootColor t Color.black) Color.black (h + 1) := by
  cases hrb with
  | red hl hr => exact IsRB.black hl hr

theorem IsRB.setBlack {K V : Type} {t : RBTree K V} {c : Color} {h : Nat}
    (hrb : IsRB t c h) : ∃ h2, IsRB (setRootColor t Color.black) Color.black h2 := by
  cases hrb with
  | nil => exact ⟨0, IsRB.nil⟩
  | red hl hr => exact ⟨_, IsRB.black hl hr⟩
  | black hl hr => exact ⟨_, IsRB.black hl hr⟩

/-- Plugging a well-formed subtree into a valid full context yields a valid
tree (of the context's height). -/
theorem isRB_plug {K V : Type} :
    ∀ (p : Path K V) (t : RBTree K V) (c : Color) (h hr : Nat),
      PathRB p h hr → IsRB t c h → compatC p c →
      ∃ c2, IsRB (plug t p) c2 hr
  | [], t, c, h, hr, hp, ht, _ => by
    have he : h = hr := hp
    exact ⟨c, he ▸ ht⟩
  | s :: rest, t, c, h, hr, hp, ht, hcompat => by
    obtain ⟨⟨cs, hsib, hsc⟩, hnext, hrest⟩ := hp
    rw [plug]
    cases hcol : s.color with
    | black =>
      have hstep : stepHeight s h = h + 1 := by simp [stepHeight, hcol]
      rw [hstep] at hrest
      cases hd : s.dir with
      | left =>
        refine isRB_plug rest _ Color.black (h + 1) hr hrest ?_ ?_
        · rw [attachStep, hd]
          exact hcol ▸ IsRB.black ht hsib
        · cases rest with
          | nil => trivial
          | cons s2 r2 => intro _; rfl
      | right =>
        refine isRB_plug rest _ Color.black (h + 1) hr hrest ?_ ?_
        · rw [attachStep, hd]
          exact hcol ▸ IsRB.black hsib ht
        · cases rest with
          | nil => trivial
          | cons s2 r2 => intro _; rfl
    | red =>
      have hstep : stepHeight s h = h := by simp [stepHeight, hcol]
      rw [hstep] at hrest
      have hcb : c = Color.black := hcompat hcol
      have hcsb : cs = Color.black := hsc hcol
      subst hcb; subst hcsb
      have hcompat2 : compatC rest Color.red := by
        cases rest with
        | nil => trivial
        | cons s2 r2 =>
          intro hred
          have : s2.color = Color.black := hnext hcol
          rw [this] at hred
          cases hred
      cases hd : s.dir with
      | left =>
        refine isRB_plug rest _ Color.red h hr hrest ?_ hcompat2
        rw [attachStep, hd]
        exact hcol ▸ IsRB.red ht hsib
      | right =>
        refine isRB_plug rest _ Color.red h hr hrest ?_ hcompat2
        rw [attachStep, hd]
        exact hcol ▸ IsRB.red hsib ht

/-- Appending contexts: an inner context whose outer-end color constraint is
discharged by the head of the outer context. -/
theorem PathRBc_append {K V : Type} :
    ∀ (p1 p2 : Path K V) (h hm hr : Nat) (nb : Prop),
      PathRBc p1 h hm (headBlackOr p2 nb) → PathRBc p2 hm hr nb →
      PathRBc (p1 ++ p2) h hr nb
  | [], p2, h, hm, hr, nb, h1, h2 => by
    have he : h = hm := h1
    exact he ▸ h2
  | s :: rest, p2, h, hm, hr, nb, h1, h2 => by
    obtain ⟨hsib, hnext, hrest⟩ := h1
    refine ⟨hsib, ?_, PathRBc_append rest p2 _ hm hr nb hrest h2⟩
    intro hcol
    have hn := hnext hcol
    cases rest with
    | nil =>
      cases p2 with
      | nil => exact hn
      | cons s2 r2 => exact hn
    | cons s2 r2 => exact hn

/-! ## Rotations and insertion rebalancing preserve the in-order entries -/

theorem entries_rotateLeft {K V : Type} (t : RBTree K V) :
    entries (rotateLeft t) = entries t := by
  cases t with
  | nil => rfl
  | node c l k v r =>
    cases r with
    | nil => rfl
    | node rc rl rk rv rr => simp [rotateLeft, entries, List.append_assoc]

theorem entries_rotateRight {K V : Type} (t : RBTree K V) :
    entries (rotateRight t) = entries t := by
  cases t with
  | nil => rfl
  | node c l k v r =>
    cases l with
    | nil => rfl
    | node lc ll lk lv lr => simp [rotateRight, entries, List.append_assoc]

theorem entries_recolorTopRight {K V : Type} (t : RBTree K V) :
    entries (recolorTopRight t) = entries t := by
  cases t with
  | nil => rfl
  | node c l k v r =>
    cases r with
    | nil => rfl
    | node rc rl rk rv rr => simp [recolorTopRight, entries]

theorem entries_recolorTopLeft {K V : Type} (t : RBTree K V) :
    entries (recolorTopLeft t) = entries t := by
  cases t with
  | nil => rfl
  | node c l k v r =>
    cases l with
    | nil => rfl
    | node lc ll lk lv lr => simp [recolorTopLeft, entries]

theorem entries_rebalanceInsert {K V : Type} :
    ∀ (t : RBTree K V) (p : Path K V),
      entries (rebalanceInsert t p) = pathEL p ++ entries t ++ pathER p
  | t, p => by
    rw [rebalanceInsert.eq_def]
    by_cases hred : isRed t = false
    · rw [if_pos hred]; exact entries_plug p t
    · rw [if_neg hred]
      cases p with
      | nil => simp [pathEL, pathER]
      | cons pstep rest =>
        dsimp only []
        by_cases hpc : pstep.color = Color.black
        · rw [if_pos hpc]; exact entries_plug _ _
        · rw [if_neg hpc]
          cases rest with
          | nil => exact entries_plug _ _
          | cons gstep rest2 =>
            dsimp only []
            by_cases hu : isRed gstep.sibling = true
            · rw [if_pos hu]
              rw [entries_rebalanceInsert _ rest2]
              cases hpd : pstep.dir <;> cases hgd : gstep.dir <;>
                simp [attachStep, hpd, hgd, entries, entries_setRootColor, pathEL, pathER,
                  List.append_assoc]
            · rw [if_neg hu]
              cases hgd : gstep.dir with
              | left =>
                rw [entries_plug, entries_recolorTopRight, entries_rotateRight]
                cases hpd : pstep.dir <;>
                  simp [attachStep, hpd, hgd, entries, entries_rotateLeft, pathEL, pathER,
                    List.append_assoc]
              | right =>
                rw [entries_plug, entries_recolorTopLeft, entries_rotateLeft]
                cases hpd : pstep.dir <;>
                  simp [attachStep, hpd, hgd, entries, entries_rotateRight, pathEL, pathER,
                    List.append_assoc]


/-! ## Insertion rebalancing restores red-black validity -/

theorem color_red_of_ne_black {c : Color} (h : c ≠ Color.black) : c = Color.red := by
  cases c with
  | red => rfl
  | black => exact absurd rfl h

theorem isRB_black_of_not_red {K V : Type} {u : RBTree K V} {cu : Color} {h : Nat}
    (hrb : IsRB u cu h) (hu : isRed u = false) : cu = Color.black := by
  cases cu with
  | black => rfl
  | red => rw [(isRed_eq_true hrb).mpr rfl] at hu; cases hu

/-- After `rebalanceInsert`, the whole tree is a valid red-black tree again
(up to the root possibly being red, which `addEntry` blackens last).  The
focus may be red below a red innermost ancestor — the single violation the
walk repairs; everything else about the zipper is well-formed. -/
theorem rebalanceInsert_rb {K V : Type} :
    ∀ (p : Path K V) (t : RBTree K V) (c : Color) (h hr : Nat),
      PathRB p h hr → IsRB t c h →
      ∃ c2 h2, IsRB (rebalanceInsert t p) c2 h2
  | p, t, c, h, hr, hp, ht => by
    rw [rebalanceInsert.eq_def]
    by_cases hred : isRed t = false
    · rw [if_pos hred]
      have hcb : c = Color.black := isRB_black_of_not_red ht hred
      subst hcb
      have hcompat : compatC p Color.black := by
        cases p with
        | nil => trivial
        | cons s r2 => intro _; rfl
      obtain ⟨c2, h2⟩ := isRB_plug p t Color.black h hr hp ht hcompat
      exact ⟨c2, hr, h2⟩
    · rw [if_neg hred]
      rw [Bool.not_eq_false] at hred
      have hcr : c = Color.red := (isRed_eq_true ht).mp hred
      subst hcr
      cases p with
      | nil => exact ⟨Color.red, h, ht⟩
      | cons pstep rest =>
        dsimp only []
        by_cases hpc : pstep.color = Color.black
        · rw [if_pos hpc]
          have hcompat : compatC (pstep :: rest) Color.red := by
            intro hcol; rw [hpc] at hcol; cases hcol
          obtain ⟨c2, h2⟩ := isRB_plug _ t Color.red h hr hp ht hcompat
          exact ⟨c2, hr, h2⟩
        · rw [if_neg hpc]
          have hpcr : pstep.color = Color.red := color_red_of_ne_black hpc
          obtain ⟨⟨cs, hsib, hsc⟩, hnext, hrest⟩ := hp
          have hcsb : cs = Color.black := hsc hpcr
          subst hcsb
          have hstep1 : stepHeight pstep h = h := by simp [stepHeight, hpcr]
          rw [hstep1] at hrest
          cases rest with
          | nil => exact absurd (hnext hpcr) id
          | cons gstep rest2 =>
            dsimp only []
            have hgb : gstep.color = Color.black := hnext hpcr
            obtain ⟨⟨cu, hunc, _⟩, _, hrest2⟩ := hrest
            have hstep2 : stepHeight gstep h = h + 1 := by simp [stepHeight, hgb]
            rw [hstep2] at hrest2
            by_cases hu : isRed gstep.sibling = true
            · rw [if_pos hu]
              have hcur : cu = Color.red := by
                cases cu with
                | red => rfl
                | black => cases (isRed_eq_true hunc).mp hu
              rw [hcur] at hunc
              have hblackU := IsRB.setBlack_of_red hunc
              have hpar : IsRB (attachStep t
                  ⟨pstep.dir, Color.black, pstep.key, pstep.value, pstep.sibling⟩)
                  Color.black (h + 1) := by
                cases hpd : pstep.dir with
                | left => simp [attachStep, hpd]; exact IsRB.black ht hsib
                | right => simp [attachStep, hpd]; exact IsRB.black hsib ht
              have hgrand : IsRB (attachStep
                  (attachStep t ⟨pstep.dir, Color.black, pstep.key, pstep.value, pstep.sibling⟩)
                  ⟨gstep.dir, Color.red, gstep.key, gstep.value,
                    setRootColor gstep.sibling Color.black⟩) Color.red (h + 1) := by
                cases hgd : gstep.dir <;> simp [attachStep, hgd]
                · exact IsRB.red hpar hblackU
                · exact IsRB.red hblackU hpar
              exact rebalanceInsert_rb rest2 _ Color.red (h + 1) hr hrest2 hgrand
            · rw [if_neg hu]
              rw [Bool.not_eq_true] at hu
              have hcub : cu = Color.black := isRB_black_of_not_red hunc hu
              subst hcub
              cases ht with
              | red htl htr =>
                rename_i tl tr tk tv
                have hfix : ∀ sub : RBTree K V, IsRB sub Color.black (h + 1) →
                    ∃ c2 h2, IsRB (plug sub rest2) c2 h2 := by
                  intro sub hsub
                  have hcompat2 : compatC rest2 Color.black := by
                    cases rest2 with
                    | nil => trivial
                    | cons s2 r2 => intro _; rfl
                  obtain ⟨c2, h2⟩ := isRB_plug rest2 sub Color.black (h + 1) hr hrest2 hsub hcompat2
                  exact ⟨c2, hr, h2⟩
                cases hgd : gstep.dir with
                | left =>
                  cases hpd : pstep.dir with
                  | left =>
                    refine hfix _ ?_
                    simp [attachStep, hpd, hpcr, rotateRight, recolorTopRight, hgb]
                    exact IsRB.black (IsRB.red htl htr) (IsRB.red hsib hunc)
                  | right =>
                    refine hfix _ ?_
                    simp [attachStep, hpd, hpcr, rotateLeft, rotateRight, recolorTopRight, hgb]
                    exact IsRB.black (IsRB.red hsib htl) (IsRB.red htr hunc)
                | right =>
                  cases hpd : pstep.dir with
                  | left =>
                    refine hfix _ ?_
                    simp [attachStep, hpd, hpcr, rotateRight, rotateLeft, recolorTopLeft, hgb]
                    exact IsRB.black (IsRB.red hunc htl) (IsRB.red htr hsib)
                  | right =>
                    refine hfix _ ?_
                    simp [attachStep, hpd, hpcr, rotateLeft, recolorTopLeft, hgb]
                    exact IsRB.black (IsRB.red hunc hsib) (IsRB.red htl htr)


/-! ## The insertion descent: zipper validity, ordering bounds, warning flag -/

theorem keys_node {K V : Type} (c : Color) (l : RBTree K V) (k : K) (v : V) (r : RBTree K V) :
    keys (RBTree.node c l k v r) = keys l ++ k :: keys r := by
  simp [keys, entries]

theorem sortedKeys_node {K V : Type} {cmp : K → K → Int} {c : Color} {l : RBTree K V}
    {k : K} {v : V} {r : RBTree K V} (hs : SortedKeys cmp (RBTree.node c l k v r)) :
    SortedKeys cmp l ∧ SortedKeys cmp r ∧
    (∀ x ∈ keys l, cmp x k < 0) ∧ (∀ y ∈ keys r, cmp k y < 0) ∧
    (∀ x ∈ keys l, ∀ y ∈ keys r, cmp x y < 0) := by
  have h0 : List.Pairwise (fun a b => cmp a b < 0) (keys l ++ k :: keys r) := by
    rw [← keys_node c l k v r]; exact hs
  rw [List.pairwise_append] at h0
  obtain ⟨hl, hkr, hcross⟩ := h0
  rw [List.pairwise_cons] at hkr
  obtain ⟨hk, hr⟩ := hkr
  refine ⟨hl, hr, ?_, hk, ?_⟩
  · intro x hx
    exact hcross x hx k (List.mem_cons_self k _)
  · intro x hx y hy
    exact hcross x hx y (List.mem_cons_of_mem k hy)

theorem pathRBc_single {K V : Type} (s : PathStep K V) (h0 : Nat) (nb : Prop) (cs : Color)
    (hsib : IsRB s.sibling cs h0) (h1 : s.color = Color.red → cs = Color.black)
    (h2 : s.color = Color.red → nb) : PathRBc [s] h0 (stepHeight s h0) nb :=
  ⟨⟨cs, hsib, h1⟩, fun hc => h2 hc, rfl⟩

theorem insertDescent_plug {K V : Type} (cmp : K → K → Int) (beq : K → K → Bool) (key : K) :
    ∀ t : RBTree K V, plug RBTree.nil (insertDescent cmp beq key t).1 = t
  | RBTree.nil => rfl
  | RBTree.node c l k v r => by
    rw [insertDescent.eq_def]
    dsimp only []
    by_cases hlt : cmp key k < 0
    · rw [if_pos hlt]
      cases l with
      | nil => rfl
      | node lc ll lk lv lr =>
        dsimp only []
        rw [plug_append, insertDescent_plug cmp beq key (RBTree.node lc ll lk lv lr)]
        rfl
    · rw [if_neg hlt]
      cases r with
      | nil => rfl
      | node rc rl rk rv rr =>
        dsimp only []
        rw [plug_append, insertDescent_plug cmp beq key (RBTree.node rc rl rk rv rr)]
        rfl

/-- The descent path is a valid red-black context for a hole of black-height
0 (the `NULL` slot where the new red node goes). -/
theorem insertDescent_pathRB {K V : Type} (cmp : K → K → Int) (beq : K → K → Bool) (key : K) :
    ∀ (t : RBTree K V) (ct : Color) (h : Nat) (nb : Prop),
      IsRB t ct h → (ct = Color.red → nb) →
      PathRBc (insertDescent cmp beq key t).1 0 h nb
  | RBTree.nil, ct, h, nb, ht, _ => by
    cases ht; exact rfl
  | RBTree.node c l k v r, ct, h, nb, ht, hnb => by
    rw [insertDescent.eq_def]
    dsimp only []
    have hcc : c = ct := by cases ht <;> rfl
    by_cases hlt : cmp key k < 0
    · rw [if_pos hlt]
      cases l with
      | nil =>
        dsimp only []
        cases ht with
        | red hl hr =>
          cases hl
          have := pathRBc_single (K := K) (V := V) ⟨Dir.left, Color.red, k, v, r⟩ 0 nb
            Color.black hr (fun _ => rfl) (fun _ => hnb rfl)
          simpa [stepHeight] using this
        | black hl hr =>
          cases hl
          rename_i cr
          have := pathRBc_single (K := K) (V := V) ⟨Dir.left, Color.black, k, v, r⟩ 0 nb
            cr hr (by intro hcol; cases hcol) (by intro hcol; cases hcol)
          simpa [stepHeight] using this
      | node lc ll lk lv lr =>
        dsimp only []
        cases ht with
        | red hl hr =>
          refine PathRBc_append _ _ 0 _ h nb
            (insertDescent_pathRB cmp beq key _ Color.black _ _ hl (by intro hcol; cases hcol))
            ?_
          have := pathRBc_single (K := K) (V := V) ⟨Dir.left, Color.red, k, v, r⟩ _ nb
            Color.black hr (fun _ => rfl) (fun _ => hnb rfl)
          simpa [stepHeight] using this
        | black hl hr =>
          rename_i cl cr hsub
          refine PathRBc_append _ _ 0 _ (hsub + 1) nb
            (insertDescent_pathRB cmp beq key _ cl _ _ hl ?_) ?_
          · intro hcol
            show headBlackOr [(⟨Dir.left, Color.black, k, v, r⟩ : PathStep K V)] nb
            exact rfl
          · have := pathRBc_single (K := K) (V := V) ⟨Dir.left, Color.black, k, v, r⟩ hsub nb
              cr hr (by intro hcol; cases hcol) (by intro hcol; cases hcol)
            simpa [stepHeight] using this
    · rw [if_neg hlt]
      cases r with
      | nil =>
        dsimp only []
        cases ht with
        | red hl hr =>
          cases hr
          have := pathRBc_single (K := K) (V := V) ⟨Dir.right, Color.red, k, v, l⟩ 0 nb
            Color.black hl (fun _ => rfl) (fun _ => hnb rfl)
          simpa [stepHeight] using this
        | black hl hr =>
          cases hr
          rename_i cl
          have := pathRBc_single (K := K) (V := V) ⟨Dir.right, Color.black, k, v, l⟩ 0 nb
            cl hl (by intro hcol; cases hcol) (by intro hcol; cases hcol)
          simpa [stepHeight] using this
      | node rc rl rk rv rr =>
        dsimp only []
        cases ht with
        | red hl hr =>
          refine PathRBc_append _ _ 0 _ h nb
            (insertDescent_pathRB cmp beq key _ Color.black _ _ hr (by intro hcol; cases hcol))
            ?_
          have := pathRBc_single (K := K) (V := V) ⟨Dir.right, Color.red, k, v, l⟩ _ nb
            Color.black hl (fun _ => rfl) (fun _ => hnb rfl)
          simpa [stepHeight] using this
        | black hl hr =>
          rename_i cl cr hsub
          refine PathRBc_append _ _ 0 _ (hsub + 1) nb
            (insertDescent_pathRB cmp beq key _ cr _ _ hr ?_) ?_
          · intro hcol
            show headBlackOr [(⟨Dir.right, Color.black, k, v, l⟩ : PathStep K V)] nb
            exact rfl
          · have := pathRBc_single (K := K) (V := V) ⟨Dir.right, Color.black, k, v, l⟩ hsub nb
              cl hl (by intro hcol; cases hcol) (by intro hcol; cases hcol)
            simpa [stepHeight] using this


/-- The descent splits the tree's entries around the hole: everything left
of the hole is below the new key and everything right of it is above, given
a sorted tree and a key that collides with no stored key. -/
theorem insertDescent_bounds {K V : Type} {cmp : K → K → Int} {beq : K → K → Bool}
    (laws : CmpLaws cmp) (key : K) :
    ∀ t : RBTree K V, SortedKeys cmp t → (∀ x ∈ keys t, cmp key x ≠ 0) →
      (∀ a ∈ pathEL (insertDescent cmp beq key t).1, cmp a.1 key < 0) ∧
      (∀ b ∈ pathER (insertDescent cmp beq key t).1, cmp key b.1 < 0)
  | RBTree.nil, _, _ => by
    constructor <;> intro a ha <;> simp [insertDescent, pathEL, pathER] at ha
  | RBTree.node c l k v r, hs, hfresh => by
    obtain ⟨hsl, hsr, hlk, hkr, _⟩ := sortedKeys_node hs
    have hmemk : k ∈ keys (RBTree.node c l k v r) := by
      rw [keys_node]; exact List.mem_append_right _ (List.mem_cons_self _ _)
    have hmeml : ∀ x ∈ keys l, x ∈ keys (RBTree.node c l k v r) := by
      intro x hx; rw [keys_node]; exact List.mem_append_left _ hx
    have hmemr : ∀ x ∈ keys r, x ∈ keys (RBTree.node c l k v r) := by
      intro x hx
      rw [keys_node]; exact List.mem_append_right _ (List.mem_cons_of_mem _ hx)
    rw [insertDescent.eq_def]
    dsimp only []
    by_cases hlt : cmp key k < 0
    · rw [if_pos hlt]
      have hbelow : ∀ b ∈ entries r, cmp key b.1 < 0 := by
        intro b hb
        have hbk : b.1 ∈ keys r := List.mem_map_of_mem Prod.fst hb
        exact laws.lt_trans key k b.1 hlt (hkr b.1 hbk)
      cases l with
      | nil =>
        dsimp only []
        constructor
        · intro a ha; simp [pathEL] at ha
        · intro b hb
          simp only [pathER, List.append_nil, List.mem_cons, List.mem_append,
            List.not_mem_nil, or_false] at hb
          rcases hb with hb | hb
          · rw [hb]; exact hlt
          · exact hbelow b hb
      | node lc ll lk lv lr =>
        dsimp only []
        obtain ⟨ihl, ihr⟩ := insertDescent_bounds laws key (RBTree.node lc ll lk lv lr) hsl
          (fun x hx => hfresh x (hmeml x hx))
        constructor
        · intro a ha
          rw [pathEL_append] at ha
          simp only [pathEL, List.append_nil] at ha
          exact ihl a ha
        · intro b hb
          rw [pathER_append] at hb
          rw [List.mem_append] at hb
          rcases hb with hb | hb
          · exact ihr b hb
          · simp only [pathER, List.append_nil, List.mem_cons, List.mem_append,
              List.not_mem_nil, or_false] at hb
            rcases hb with hb | hb
            · rw [hb]; exact hlt
            · exact hbelow b hb
    · rw [if_neg hlt]
      have hklt : cmp k key < 0 := by
        rcases lt_trichotomy (cmp key k) 0 with hc | hc | hc
        · exact absurd hc hlt
        · exact absurd hc (hfresh k hmemk)
        · exact (laws.asymm k key).mpr hc
      have habove : ∀ a ∈ entries l, cmp a.1 key < 0 := by
        intro a ha
        have hak : a.1 ∈ keys l := List.mem_map_of_mem Prod.fst ha
        exact laws.lt_trans a.1 k key (hlk a.1 hak) hklt
      cases r with
      | nil =>
        dsimp only []
        constructor
        · intro a ha
          simp only [pathEL, List.nil_append, List.mem_append, List.mem_singleton] at ha
          rcases ha with ha | ha
          · exact habove a ha
          · rw [ha]; exact hklt
        · intro b hb; simp [pathER] at hb
      | node rc rl rk rv rr =>
        dsimp only []
        obtain ⟨ihl, ihr⟩ := insertDescent_bounds laws key (RBTree.node rc rl rk rv rr) hsr
          (fun x hx => hfresh x (hmemr x hx))
        constructor
        · intro a ha
          rw [pathEL_append] at ha
          rw [List.mem_append] at ha
          rcases ha with ha | ha
          · simp only [pathEL, List.nil_append, List.mem_append, List.mem_singleton] at ha
            rcases ha with ha | ha
            · exact habove a ha
            · rw [ha]; exact hklt
          · exact ihl a ha
        · intro b hb
          rw [pathER_append] at hb
          simp only [pathER, List.append_nil] at hb
          exact ihr b hb

/-- If no stored key is `equals`-equal to the new key, the collision warning
of the insertion descent never fires. -/
theorem insertDescent_no_warn {K V : Type} (cmp : K → K → Int) (beq : K → K → Bool) (key : K) :
    ∀ t : RBTree K V, (∀ x ∈ keys t, beq key x = false) →
      (insertDescent cmp beq key t).2 = false
  | RBTree.nil, _ => rfl
  | RBTree.node c l k v r, hf => by
    have hmemk : k ∈ keys (RBTree.node c l k v r) := by
      rw [keys_node]; exact List.mem_append_right _ (List.mem_cons_self _ _)
    rw [insertDescent.eq_def]
    dsimp only []
    by_cases hlt : cmp key k < 0
    · rw [if_pos hlt]
      cases l with
      | nil => rfl
      | node lc ll lk lv lr =>
        dsimp only []
        exact insertDescent_no_warn cmp beq key (RBTree.node lc ll lk lv lr)
          (fun x hx => hf x (by rw [keys_node]; exact List.mem_append_left _ hx))
    · rw [if_neg hlt]
      cases r with
      | nil =>
        dsimp only []
        exact hf k hmemk
      | node rc rl rk rv rr =>
        dsimp only []
        rw [hf k hmemk, Bool.false_or]
        exact insertDescent_no_warn cmp beq key (RBTree.node rc rl rk rv rr)
          (fun x hx => hf x
            (by rw [keys_node]; exact List.mem_append_right _ (List.mem_cons_of_mem _ hx)))


/-! ## findNode soundness and the addEntry specification -/

/-- Whatever `findNode` returns is a node of the tree whose key passes the
equality test against the searched key (no ordering assumptions needed). -/
theorem findNode_sound {K V : Type} (cmp : K → K → Int) (beq : K → K → Bool) (key : K) :
    ∀ t : RBTree K V, ∀ f, findNode cmp beq t key = some f →
      ∃ c2 l2 k2 v2 r2, f = RBTree.node c2 l2 k2 v2 r2 ∧
        (k2, v2) ∈ entries t ∧ beq k2 key = true
  | RBTree.nil, f, hf => by simp [findNode] at hf
  | RBTree.node c l k v r, f, hf => by
    rw [findNode] at hf
    by_cases hbeq : beq k key
    · rw [if_pos hbeq] at hf
      refine ⟨c, l, k, v, r, (Option.some_inj.mp hf).symm, ?_, hbeq⟩
      simp [entries]
    · rw [if_neg hbeq] at hf
      by_cases hgt : cmp key k > 0
      · rw [if_pos hgt] at hf
        obtain ⟨c2, l2, k2, v2, r2, hfe, hmem, hb⟩ := findNode_sound cmp beq key r f hf
        exact ⟨c2, l2, k2, v2, r2, hfe, by simp [entries]; right; right; exact hmem, hb⟩
      · rw [if_neg hgt] at hf
        obtain ⟨c2, l2, k2, v2, r2, hfe, hmem, hb⟩ := findNode_sound cmp beq key l f hf
        exact ⟨c2, l2, k2, v2, r2, hfe, by simp [entries]; left; exact hmem, hb⟩

theorem pairwise_insert_mid {α : Type} {R : α → α → Prop} {A B : List α} {x : α}
    (hs : List.Pairwise R (A ++ B)) (ha : ∀ a ∈ A, R a x) (hb : ∀ b ∈ B, R x b) :
    List.Pairwise R (A ++ x :: B) := by
  rw [List.pairwise_append] at hs
  obtain ⟨hA, hB, hcross⟩ := hs
  rw [List.pairwise_append]
  refine ⟨hA, ?_, ?_⟩
  · rw [List.pairwise_cons]
    exact ⟨hb, hB⟩
  · intro a haA y hy
    rcases List.mem_cons.mp hy with hy | hy
    · rw [hy]; exact ha a haA
    · exact hcross a haA y hy

theorem sortedKeys_iff_entries {K V : Type} (cmp : K → K → Int) (t : RBTree K V) :
    SortedKeys cmp t ↔ List.Pairwise (fun p q : K × V => cmp p.1 q.1 < 0) (entries t) := by
  unfold SortedKeys keys
  exact List.pairwise_map

/-- If no stored key passes the equality test against the searched key,
`findNode` fails (and `containsKey` is false). -/
theorem findNode_none_of_fresh {K V : Type} (cmp : K → K → Int) (beq : K → K → Bool)
    (key : K) (t : RBTree K V) (hfresh : ∀ x ∈ keys t, beq x key = false) :
    findNode cmp beq t key = none := by
  cases hfind : findNode cmp beq t key with
  | none => rfl
  | some f =>
    obtain ⟨c2, l2, k2, v2, r2, _, hmem, hb⟩ := findNode_sound cmp beq key t f hfind
    have hk2 : k2 ∈ keys t := List.mem_map_of_mem Prod.fst hmem
    rw [hfresh k2 hk2] at hb
    cases hb

/-- Full specification of a successful `addEntry`: on a well-formed sorted
map holding no key colliding with the new one (neither by `compare` nor by
`equals`), the call succeeds, the result is a well-formed red-black tree
whose entries are the old entries with the new pair inserted at its ordered
position, and the size grows by one. -/
theorem addEntry_spec {K V : Type} {cmp : K → K → Int} {beq : K → K → Bool}
    (laws : CmpLaws cmp) (m : atMap K V) (key : K) (value : V) (h : Nat)
    (hrb : IsRB m.treeRoot Color.black h)
    (hsort : SortedKeys cmp m.treeRoot)
    (hfc : ∀ x ∈ keys m.treeRoot, cmp key x ≠ 0)
    (hfb : ∀ x ∈ keys m.treeRoot, beq x key = false) :
    (addEntry cmp beq m key value).1 = true ∧
    (∃ h2, IsRB (addEntry cmp beq m key value).2.1.treeRoot Color.black h2) ∧
    SortedKeys cmp (addEntry cmp beq m key value).2.1.treeRoot ∧
    (∃ A B, entries m.treeRoot = A ++ B ∧
      entries (addEntry cmp beq m key value).2.1.treeRoot = A ++ (key, value) :: B) ∧
    (addEntry cmp beq m key value).2.1.treeSize = m.treeSize + 1 := by
  have hck : containsKey cmp beq m key = false := by
    unfold containsKey
    rw [findNode_none_of_fresh cmp beq key m.treeRoot hfb]
    rfl
  unfold addEntry
  rw [hck, if_neg Bool.false_ne_true]
  cases hroot : m.treeRoot with
  | nil =>
    refine ⟨rfl, ⟨1, IsRB.black IsRB.nil IsRB.nil⟩, ?_, ⟨[], [], rfl, rfl⟩, rfl⟩
    simp [SortedKeys, keys, entries]
  | node c l k v r =>
    rw [hroot] at hrb hsort hfc hfb
    have hct : c = Color.black := by cases hrb; rfl
    set dp := insertDescent cmp beq key (RBTree.node c l k v r) with hdp
    have hplug : plug RBTree.nil dp.1 = RBTree.node c l k v r :=
      insertDescent_plug cmp beq key _
    have hpath : PathRBc dp.1 0 h False := by
      refine insertDescent_pathRB cmp beq key _ Color.black h False hrb ?_
      intro hcol; cases hcol
    have hleaf : IsRB (RBTree.node Color.red RBTree.nil key value RBTree.nil) Color.red 0 :=
      IsRB.red IsRB.nil IsRB.nil
    obtain ⟨c2, h2, ht1⟩ := rebalanceInsert_rb dp.1 _ Color.red 0 h hpath hleaf
    obtain ⟨h3, ht2⟩ := IsRB.setBlack ht1
    have hent1 : entries (rebalanceInsert (RBTree.node Color.red RBTree.nil key value
        RBTree.nil) dp.1) = pathEL dp.1 ++ (key, value) :: pathER dp.1 := by
      rw [entries_rebalanceInsert]
      simp [entries]
    have hent0 : entries (RBTree.node c l k v r) = pathEL dp.1 ++ pathER dp.1 := by
      rw [← hplug, entries_plug]
      simp [entries]
    obtain ⟨hbl, hbr⟩ := @insertDescent_bounds K V cmp beq laws key _ hsort hfc
    refine ⟨rfl, ⟨h3, ht2⟩, ?_, ⟨pathEL dp.1, pathER dp.1, hent0, ?_⟩, rfl⟩
    · rw [sortedKeys_iff_entries]
      dsimp only []
      rw [entries_setRootColor, hent1]
      refine pairwise_insert_mid ?_ ?_ ?_
      · rw [← hent0]
        exact (sortedKeys_iff_entries cmp _).mp hsort
      · intro a ha; exact hbl a ha
      · intro b hb; exact hbr b hb
    · dsimp only []
      rw [entries_setRootColor, hent1]


/-! ## Bridges between `IsRB`/`SortedKeys` and the five executable invariant
checkers -/

theorem rootColor_black_of_not_red {K V : Type} {t : RBTree K V}
    (h : isRed t = false) : rootColor t = Color.black := by
  cases t with
  | nil => rfl
  | node c l k v r => cases c with
    | red => simp [isRed] at h
    | black => rfl

theorem isRB_noRedRedB {K V : Type} :
    ∀ {t : RBTree K V} {c : Color} {h : Nat}, IsRB t c h → noRedRedB t = true := by
  intro t
  induction t with
  | nil => intro c h _; rfl
  | node c0 l k v r ihl ihr =>
    intro c h hrb
    cases hrb with
    | red hl hr =>
      have hll : isRed l = false := by
        rw [Bool.eq_false_iff]
        intro hc
        cases (isRed_eq_true hl).mp hc
      have hrr : isRed r = false := by
        rw [Bool.eq_false_iff]
        intro hc
        cases (isRed_eq_true hr).mp hc
      simp [noRedRedB, ihl hl, ihr hr, hll, hrr]
    | black hl hr =>
      simp [noRedRedB, ihl hl, ihr hr]

theorem isRB_blackHeightOk {K V : Type} :
    ∀ {t : RBTree K V} {c : Color} {h : Nat}, IsRB t c h → blackHeightOk t = some h := by
  intro t
  induction t with
  | nil => intro c h hrb; cases hrb; rfl
  | node c0 l k v r ihl ihr =>
    intro c h hrb
    cases hrb with
    | red hl hr => simp [blackHeightOk, ihl hl, ihr hr]
    | black hl hr => simp [blackHeightOk, ihl hl, ihr hr]

theorem isRB_rootBlackB {K V : Type} {t : RBTree K V} {h : Nat}
    (hrb : IsRB t Color.black h) : rootBlackB t = true := by
  cases hrb with
  | nil => rfl
  | black hl hr => rfl

/-- Conversely, the executable checkers imply `IsRB` at the root color. -/
theorem isRB_of_checks {K V : Type} :
    ∀ (t : RBTree K V) (h : Nat), noRedRedB t = true → blackHeightOk t = some h →
      IsRB t (rootColor t) h
  | RBTree.nil, h, _, hbh => by
    simp [blackHeightOk] at hbh
    rw [← hbh]
    exact IsRB.nil
  | RBTree.node c l k v r, h, hnr, hbh => by
    simp only [noRedRedB, Bool.and_eq_true] at hnr
    obtain ⟨⟨hc, hnl⟩, hnr2⟩ := hnr
    simp only [blackHeightOk] at hbh
    cases hbl : blackHeightOk l with
    | none => rw [hbl] at hbh; cases hbh
    | some hl =>
      cases hbr : blackHeightOk r with
      | none => rw [hbl, hbr] at hbh; cases hbh
      | some hr =>
        rw [hbl, hbr] at hbh
        by_cases heq : hl = hr
        · subst heq
          dsimp only [] at hbh
          rw [if_pos rfl] at hbh
          have ihl := isRB_of_checks l hl hnl hbl
          have ihr := isRB_of_checks r hl hnr2 hbr
          cases hcc : c with
          | red =>
            rw [hcc] at hc
            simp only [Bool.or_eq_true, bne_self_eq_false, Bool.false_or,
              Bool.and_eq_true, Bool.not_eq_true'] at hc
            obtain ⟨hlred, hrred⟩ := hc
            have hlb := rootColor_black_of_not_red hlred
            have hrb2 := rootColor_black_of_not_red hrred
            rw [hlb] at ihl
            rw [hrb2] at ihr
            have hh : h = hl := by
              rw [hcc] at hbh
              simp at hbh
              omega
            subst hh
            exact IsRB.red ihl ihr
          | black =>
            have hh : h = hl + 1 := by
              rw [hcc] at hbh
              simp at hbh
              omega
            subst hh
            exact IsRB.black ihl ihr
        · dsimp only [] at hbh
          rw [if_neg heq] at hbh
          cases hbh

theorem pairwiseB_iff {α : Type} (p : α → α → Bool) :
    ∀ l : List α, pairwiseB p l = true ↔ List.Pairwise (fun a b => p a b = true) l
  | [] => by simp [pairwiseB]
  | a :: rest => by
    simp [pairwiseB, List.pairwise_cons, pairwiseB_iff p rest, List.all_eq_true]

theorem isBSTB_of_sorted {K V : Type} {cmp : K → K → Int} (laws : CmpLaws cmp) :
    ∀ t : RBTree K V, SortedKeys cmp t → isBSTB cmp t = true
  | RBTree.nil, _ => rfl
  | RBTree.node c l k v r, hs => by
    obtain ⟨hsl, hsr, hlk, hkr, _⟩ := sortedKeys_node hs
    simp only [isBSTB, Bool.and_eq_true, List.all_eq_true]
    refine ⟨⟨⟨?_, ?_⟩, isBSTB_of_sorted laws l hsl⟩, isBSTB_of_sorted laws r hsr⟩
    · intro x hx
      simpa using hlk x hx
    · intro x hx
      have := (laws.asymm k x).mp (hkr x hx)
      simp only [decide_eq_true_eq]
      omega

theorem uniqueKeysB_of_pairwise {K V : Type} {beq : K → K → Bool} {t : RBTree K V}
    (hp : List.Pairwise (fun a b => beq a b = false ∧ beq b a = false) (keys t)) :
    uniqueKeysB beq t = true := by
  rw [uniqueKeysB, pairwiseB_iff]
  refine hp.imp ?_
  intro a b hab
  simp [hab.1, hab.2]

/-- The converse bridge: the BST checker plus uniqueness (with an equality
test that agrees with `compare`) force a strictly ascending in-order key
list. -/
theorem sorted_of_bst_unique {K V : Type} {cmp : K → K → Int} {beq : K → K → Bool}
    (laws : CmpLaws cmp) (hbeq : ∀ a b, beq a b = true ↔ cmp a b = 0) :
    ∀ t : RBTree K V, isBSTB cmp t = true → uniqueKeysB beq t = true →
      SortedKeys cmp t
  | RBTree.nil, _, _ => List.Pairwise.nil
  | RBTree.node c l k v r, hb, hu => by
    simp only [isBSTB, Bool.and_eq_true, List.all_eq_true] at hb
    obtain ⟨⟨⟨hlk, hkr⟩, hbl⟩, hbr⟩ := hb
    rw [uniqueKeysB, pairwiseB_iff, keys_node] at hu
    rw [List.pairwise_append] at hu
    obtain ⟨hul, hukr, hucross⟩ := hu
    rw [List.pairwise_cons] at hukr
    obtain ⟨huk, hur⟩ := hukr
    have hul2 : uniqueKeysB beq l = true := by
      rw [uniqueKeysB, pairwiseB_iff]; exact hul
    have hur2 : uniqueKeysB beq r = true := by
      rw [uniqueKeysB, pairwiseB_iff]; exact hur
    have hsl := sorted_of_bst_unique laws hbeq l hbl hul2
    have hsr := sorted_of_bst_unique laws hbeq r hbr hur2
    have hlk2 : ∀ x ∈ keys l, cmp x k < 0 := by
      intro x hx
      simpa using hlk x hx
    have hkr2 : ∀ y ∈ keys r, cmp k y < 0 := by
      intro y hy
      have h1 : cmp y k ≥ 0 := by simpa using hkr y hy
      have h2 := huk y hy
      simp only [Bool.and_eq_true, Bool.not_eq_true'] at h2
      have h3 : cmp y k ≠ 0 := by
        intro h0
        have := (hbeq y k).mpr h0
        rw [h2.2] at this
        cases this
      have h4 : cmp y k > 0 := by omega
      exact (laws.asymm k y).mpr h4
    rw [SortedKeys, keys_node, List.pairwise_append]
    refine ⟨hsl, ?_, ?_⟩
    · rw [List.pairwise_cons]
      exact ⟨hkr2, hsr⟩
    · intro a ha y hy
      rcases List.mem_cons.mp hy with hy | hy
      · rw [hy]; exact hlk2 a ha
      · exact laws.lt_trans a k y (hlk2 a ha) (hkr2 y hy)


/-! ## Sequences of insertions -/

/-- Invariants after inserting any prefix of a list of pairwise-distinct
keyed pairs into the empty map. -/
theorem applyAdds_take {K V : Type} {cmp : K → K → Int} {beq : K → K → Bool}
    (laws : CmpLaws cmp) (kvs : List (K × V))
    (hdist : kvs.Pairwise (fun p q => cmp p.1 q.1 ≠ 0 ∧ cmp q.1 p.1 ≠ 0 ∧
      beq p.1 q.1 = false ∧ beq q.1 p.1 = false)) :
    ∀ i, i ≤ kvs.length →
      (∃ h, IsRB (applyAdds cmp beq atMap.empty (kvs.take i)).treeRoot Color.black h) ∧
      SortedKeys cmp (applyAdds cmp beq atMap.empty (kvs.take i)).treeRoot ∧
      (entries (applyAdds cmp beq atMap.empty (kvs.take i)).treeRoot).Perm (kvs.take i) ∧
      (applyAdds cmp beq atMap.empty (kvs.take i)).treeSize = i := by
  intro i
  induction i with
  | zero =>
    intro _
    exact ⟨⟨0, IsRB.nil⟩, List.Pairwise.nil, List.Perm.refl _, rfl⟩
  | succ i ih =>
    intro hi1
    have hlt : i < kvs.length := Nat.lt_of_succ_le hi1
    obtain ⟨⟨h, hrb⟩, hsort, hperm, hsize⟩ := ih (Nat.le_of_lt hlt)
    have htake : kvs.take (i + 1) = kvs.take i ++ [kvs.get ⟨i, hlt⟩] := by
      rw [List.take_succ]
      congr 1
      rw [List.getElem?_eq_getElem hlt]
      rfl
    set x := kvs.get ⟨i, hlt⟩ with hx
    set m := applyAdds cmp beq atMap.empty (kvs.take i) with hm
    have happ : applyAdds cmp beq atMap.empty (kvs.take (i + 1)) =
        (addEntry cmp beq m x.1 x.2).2.1 := by
      rw [htake, hm]
      unfold applyAdds
      rw [List.foldl_append]
      rfl
    have hp2 : (kvs.take (i + 1)).Pairwise (fun p q => cmp p.1 q.1 ≠ 0 ∧ cmp q.1 p.1 ≠ 0 ∧
        beq p.1 q.1 = false ∧ beq q.1 p.1 = false) :=
      hdist.sublist (List.take_sublist (i + 1) kvs)
    rw [htake, List.pairwise_append] at hp2
    have hcross : ∀ p ∈ kvs.take i, cmp p.1 x.1 ≠ 0 ∧ cmp x.1 p.1 ≠ 0 ∧
        beq p.1 x.1 = false ∧ beq x.1 p.1 = false := by
      intro p hp
      exact hp2.2.2 p hp x (List.mem_singleton_self x)
    have hmem : ∀ y ∈ keys m.treeRoot, ∃ p ∈ kvs.take i, p.1 = y := by
      intro y hy
      have hky : (keys m.treeRoot).Perm ((kvs.take i).map Prod.fst) := hperm.map Prod.fst
      have : y ∈ (kvs.take i).map Prod.fst := hky.mem_iff.mp hy
      obtain ⟨p, hp, hpe⟩ := List.mem_map.mp this
      exact ⟨p, hp, hpe⟩
    have hfc : ∀ y ∈ keys m.treeRoot, cmp x.1 y ≠ 0 := by
      intro y hy
      obtain ⟨p, hp, hpe⟩ := hmem y hy
      rw [← hpe]
      exact (hcross p hp).2.1
    have hfb : ∀ y ∈ keys m.treeRoot, beq y x.1 = false := by
      intro y hy
      obtain ⟨p, hp, hpe⟩ := hmem y hy
      rw [← hpe]
      exact (hcross p hp).2.2.1
    obtain ⟨hsucc, ⟨h2, hrb2⟩, hsort2, ⟨A, B, hAB, hABx⟩, hsz2⟩ :=
      addEntry_spec laws m x.1 x.2 h hrb hsort hfc hfb
    rw [happ]
    refine ⟨⟨h2, hrb2⟩, hsort2, ?_, by rw [hsz2, hsize]⟩
    have p1 : (A ++ (x.1, x.2) :: B).Perm ((x.1, x.2) :: (A ++ B)) := List.perm_middle
    have p2 : ((x.1, x.2) :: (A ++ B)).Perm ((x.1, x.2) :: kvs.take i) :=
      List.Perm.cons _ (hAB ▸ hperm)
    have p3 : ((x.1, x.2) :: kvs.take i).Perm (kvs.take i ++ [(x.1, x.2)]) :=
      @List.perm_append_comm _ [(x.1, x.2)] (kvs.take i)
    have hxe : (x.1, x.2) = x := Prod.mk.eta
    rw [hABx, htake, ← hxe]
    exact p1.trans (p2.trans p3)


/-! ## Deletion rebalancing preserves the in-order entries -/

theorem entries_rbDelCaseL_more {K V : Type} (x : RBTree K V) (pc : Color) (pk : K) (pv : V)
    (s1 : RBTree K V) (sk : K) (sv : V) (s2 : RBTree K V) (sib2 : RBTree K V)
    (h : rbDelCaseL x pc pk pv s1 sk sv s2 = DelStep.more sib2) :
    entries sib2 = entries s1 ++ (sk, sv) :: entries s2 := by
  unfold rbDelCaseL at h
  split_ifs at h
  · injection h with h2
    rw [← h2]
    rfl
  · split at h <;> cases h

theorem entries_rbDelCaseL_done {K V : Type} (x : RBTree K V) (pc : Color) (pk : K) (pv : V)
    (s1 : RBTree K V) (sk : K) (sv : V) (s2 : RBTree K V) (sub : RBTree K V)
    (h : rbDelCaseL x pc pk pv s1 sk sv s2 = DelStep.done sub) :
    entries sub = entries x ++ (pk, pv) :: (entries s1 ++ (sk, sv) :: entries s2) := by
  unfold rbDelCaseL at h
  split_ifs at h
  split at h
  · injection h with h2
    rw [← h2]
    simp [entries, List.append_assoc]
  · injection h with h2
    rw [← h2]
    simp [entries, entries_setRootColor, List.append_assoc]

theorem entries_rbDelCaseR_more {K V : Type} (x : RBTree K V) (pc : Color) (pk : K) (pv : V)
    (s1 : RBTree K V) (sk : K) (sv : V) (s2 : RBTree K V) (sib2 : RBTree K V)
    (h : rbDelCaseR x pc pk pv s1 sk sv s2 = DelStep.more sib2) :
    entries sib2 = entries s1 ++ (sk, sv) :: entries s2 := by
  unfold rbDelCaseR at h
  split_ifs at h
  · injection h with h2
    rw [← h2]
    rfl
  · split at h <;> cases h

theorem entries_rbDelCaseR_done {K V : Type} (x : RBTree K V) (pc : Color) (pk : K) (pv : V)
    (s1 : RBTree K V) (sk : K) (sv : V) (s2 : RBTree K V) (sub : RBTree K V)
    (h : rbDelCaseR x pc pk pv s1 sk sv s2 = DelStep.done sub) :
    entries sub = (entries s1 ++ (sk, sv) :: entries s2) ++ (pk, pv) :: entries x := by
  unfold rbDelCaseR at h
  split_ifs at h
  split at h
  · injection h with h2
    rw [← h2]
    simp [entries, List.append_assoc]
  · injection h with h2
    rw [← h2]
    simp [entries, entries_setRootColor, List.append_assoc]

theorem entries_rebalanceDelete {K V : Type} :
    ∀ (x : RBTree K V) (path : Path K V),
      entries (rebalanceDelete x path) = pathEL path ++ entries x ++ pathER path
  | x, [] => by
    rw [rebalanceDelete]
    simp [pathEL, pathER]
  | x, pstep :: rest => by
    rw [rebalanceDelete]
    by_cases hx : isRed x = true
    · rw [dif_pos hx]
      rw [entries_plug, entries_setRootColor]
    · rw [dif_neg hx]
      obtain ⟨pd, pc, pk, pv, ps⟩ := pstep
      cases pd with
      | left =>
        dsimp only []
        cases ps with
        | nil => rw [entries_plug]
        | node sc sl sk sv sr =>
          cases sc with
          | red =>
            dsimp only []
            cases sl with
            | nil =>
              rw [entries_plug]
              simp [pathEL, pathER, entries, List.append_assoc]
            | node sc2 a ak av b =>
              dsimp only []
              cases hcase : rbDelCaseL x Color.red pk pv a ak av b with
              | more sib2 =>
                rw [entries_rebalanceDelete _ (⟨Dir.left, Color.black, sk, sv, sr⟩ :: rest)]
                have he := entries_rbDelCaseL_more x Color.red pk pv a ak av b sib2 hcase
                simp [pathEL, pathER, entries, he, List.append_assoc]
              | done sub =>
                rw [entries_plug]
                have he := entries_rbDelCaseL_done x Color.red pk pv a ak av b sub hcase
                simp [pathEL, pathER, entries, he, List.append_assoc]
          | black =>
            dsimp only []
            cases hcase : rbDelCaseL x pc pk pv sl sk sv sr with
            | more sib2 =>
              rw [entries_rebalanceDelete _ rest]
              have he := entries_rbDelCaseL_more x pc pk pv sl sk sv sr sib2 hcase
              simp [pathEL, pathER, entries, he, List.append_assoc]
            | done sub =>
              rw [entries_plug]
              have he := entries_rbDelCaseL_done x pc pk pv sl sk sv sr sub hcase
              simp [pathEL, pathER, entries, he, List.append_assoc]
      | right =>
        dsimp only []
        cases ps with
        | nil => rw [entries_plug]
        | node sc sl sk sv sr =>
          cases sc with
          | red =>
            dsimp only []
            cases sr with
            | nil =>
              rw [entries_plug]
              simp [pathEL, pathER, entries, List.append_assoc]
            | node sc2 c2 rk rv d =>
              dsimp only []
              cases hcase : rbDelCaseR x Color.red pk pv c2 rk rv d with
              | more sib2 =>
                rw [entries_rebalanceDelete _ (⟨Dir.right, Color.black, sk, sv, sl⟩ :: rest)]
                have he := entries_rbDelCaseR_more x Color.red pk pv c2 rk rv d sib2 hcase
                simp [pathEL, pathER, entries, he, List.append_assoc]
              | done sub =>
                rw [entries_plug]
                have he := entries_rbDelCaseR_done x Color.red pk pv c2 rk rv d sub hcase
                simp [pathEL, pathER, entries, he, List.append_assoc]
          | black =>
            dsimp only []
            cases hcase : rbDelCaseR x pc pk pv sl sk sv sr with
            | more sib2 =>
              rw [entries_rebalanceDelete _ rest]
              have he := entries_rbDelCaseR_more x pc pk pv sl sk sv sr sib2 hcase
              simp [pathEL, pathER, entries, he, List.append_assoc]
            | done sub =>
              rw [entries_plug]
              have he := entries_rbDelCaseR_done x pc pk pv sl sk sv sr sub hcase
              simp [pathEL, pathER, entries, he, List.append_assoc]
termination_by x path => 2 * path.length + (if isRed x then 0 else 1)
decreasing_by
  all_goals simp_all only [isRed, List.length_cons, Bool.not_eq_true, if_neg, Bool.false_eq_true,
    not_false_eq_true, if_true, if_false]
  all_goals first
  | omega
  | (split <;> omega)


/-! ## Structural characterization of the deletion cases -/

theorem rbDelCaseL_more_eq {K V : Type} {x : RBTree K V} {pc : Color} {pk : K} {pv : V}
    {s1 : RBTree K V} {sk : K} {sv : V} {s2 : RBTree K V} {sib2 : RBTree K V}
    (h : rbDelCaseL x pc pk pv s1 sk sv s2 = DelStep.more sib2) :
    sib2 = RBTree.node Color.red s1 sk sv s2 ∧ isRed s1 = false ∧ isRed s2 = false := by
  unfold rbDelCaseL at h
  split_ifs at h with hcond
  · injection h with h2
    exact ⟨h2.symm, hcond.1, hcond.2⟩
  · split at h <;> cases h

theorem rbDelCaseR_more_eq {K V : Type} {x : RBTree K V} {pc : Color} {pk : K} {pv : V}
    {s1 : RBTree K V} {sk : K} {sv : V} {s2 : RBTree K V} {sib2 : RBTree K V}
    (h : rbDelCaseR x pc pk pv s1 sk sv s2 = DelStep.more sib2) :
    sib2 = RBTree.node Color.red s1 sk sv s2 ∧ isRed s1 = false ∧ isRed s2 = false := by
  unfold rbDelCaseR at h
  split_ifs at h with hcond
  · injection h with h2
    exact ⟨h2.symm, hcond.1, hcond.2⟩
  · split at h <;> cases h

theorem rbDelCaseL_done_eq {K V : Type} {x : RBTree K V} {pc : Color} {pk : K} {pv : V}
    {s1 : RBTree K V} {sk : K} {sv : V} {s2 : RBTree K V} {sub : RBTree K V}
    (h : rbDelCaseL x pc pk pv s1 sk sv s2 = DelStep.done sub) :
    (∃ a ak av b, s1 = RBTree.node Color.red a ak av b ∧
      sub = RBTree.node pc (RBTree.node Color.black x pk pv a) ak av
        (RBTree.node Color.black b sk sv s2)) ∨
    (isRed s1 = false ∧ isRed s2 = true ∧
      sub = RBTree.node pc (RBTree.node Color.black x pk pv s1) sk sv
        (setRootColor s2 Color.black)) := by
  unfold rbDelCaseL at h
  split_ifs at h with hcond
  split at h
  · injection h with h2
    exact Or.inl ⟨_, _, _, _, rfl, h2.symm⟩
  · rename_i hnomatch
    right
    have hs1 : isRed s1 = false := by
      cases s1 with
      | nil => rfl
      | node c1 l1 k1 v1 r1 =>
        cases c1 with
        | red => exact absurd rfl (hnomatch l1 k1 v1 r1)
        | black => rfl
    have hs2 : isRed s2 = true := by
      by_cases hb : isRed s2 = true
      · exact hb
      · rw [Bool.not_eq_true] at hb
        exact absurd ⟨hs1, hb⟩ hcond
    injection h with h2
    exact ⟨hs1, hs2, h2.symm⟩

theorem rbDelCaseR_done_eq {K V : Type} {x : RBTree K V} {pc : Color} {pk : K} {pv : V}
    {s1 : RBTree K V} {sk : K} {sv : V} {s2 : RBTree K V} {sub : RBTree K V}
    (h : rbDelCaseR x pc pk pv s1 sk sv s2 = DelStep.done sub) :
    (∃ c rk rv d, s2 = RBTree.node Color.red c rk rv d ∧
      sub = RBTree.node pc (RBTree.node Color.black s1 sk sv c) rk rv
        (RBTree.node Color.black d pk pv x)) ∨
    (isRed s2 = false ∧ isRed s1 = true ∧
      sub = RBTree.node pc (setRootColor s1 Color.black) sk sv
        (RBTree.node Color.black s2 pk pv x)) := by
  unfold rbDelCaseR at h
  split_ifs at h with hcond
  split at h
  · injection h with h2
    exact Or.inl ⟨_, _, _, _, rfl, h2.symm⟩
  · rename_i hnomatch
    right
    have hs2 : isRed s2 = false := by
      cases s2 with
      | nil => rfl
      | node c1 l1 k1 v1 r1 =>
        cases c1 with
        | red => exact absurd rfl (hnomatch l1 k1 v1 r1)
        | black => rfl
    have hs1 : isRed s1 = true := by
      by_cases hb : isRed s1 = true
      · exact hb
      · rw [Bool.not_eq_true] at hb
        exact absurd ⟨hb, hs2⟩ hcond
    injection h with h2
    exact ⟨hs2, hs1, h2.symm⟩


/-! ## Deletion rebalancing restores red-black validity -/

theorem isRB_red_inv {K V : Type} {l r : RBTree K V} {k : K} {v : V} {cc : Color} {h : Nat}
    (hrb : IsRB (RBTree.node Color.red l k v r) cc h) :
    cc = Color.red ∧ IsRB l Color.black h ∧ IsRB r Color.black h := by
  cases hrb with
  | red h1 h2 => exact ⟨rfl, h1, h2⟩

theorem isRB_black_inv {K V : Type} {l r : RBTree K V} {k : K} {v : V} {cc : Color} {h : Nat}
    (hrb : IsRB (RBTree.node Color.black l k v r) cc h) :
    cc = Color.black ∧ ∃ cl cr h2, h = h2 + 1 ∧ IsRB l cl h2 ∧ IsRB r cr h2 := by
  cases hrb with
  | black h1 h2 => exact ⟨rfl, _, _, _, rfl, h1, h2⟩

theorem isRB_nil_inv {K V : Type} {cc : Color} {h : Nat}
    (hrb : IsRB (RBTree.nil : RBTree K V) cc h) : cc = Color.black ∧ h = 0 := by
  cases hrb
  exact ⟨rfl, rfl⟩

/-- The deletion-rebalance walk repairs a one-black-short subtree.  The gap
occupant `x` is either a properly formed subtree one black level short of
the hole's height `H`, or (mid-walk only, with a parent present) a red-rooted
node whose blackened form has exactly height `H`.  The result is a valid
red-black tree. -/
theorem rebalanceDelete_rb {K V : Type} :
    ∀ (x : RBTree K V) (path : Path K V) (H hr : Nat),
      PathRBc path H hr False →
      ((∃ cx hx2, H = hx2 + 1 ∧ IsRB x cx hx2) ∨
        (path ≠ [] ∧ isRed x = true ∧ IsRB (setRootColor x Color.black) Color.black H)) →
      ∃ c2 h2, IsRB (rebalanceDelete x path) c2 h2
  | x, [], H, hr, hp, hsh => by
    rw [rebalanceDelete]
    rcases hsh with ⟨cx, hx2, hHe, hxr⟩ | ⟨hne, _, _⟩
    · exact ⟨cx, hx2, hxr⟩
    · exact absurd rfl hne
  | x, pstep :: rest, H, hr, hp, hsh => by
    rw [rebalanceDelete]
    by_cases hx : isRed x = true
    · rw [dif_pos hx]
      have hxb : IsRB (setRootColor x Color.black) Color.black H := by
        rcases hsh with ⟨cx, hx2, hHe, hxr⟩ | ⟨_, _, hb⟩
        · have hcxr : cx = Color.red := (isRed_eq_true hxr).mp hx
          subst hcxr
          subst hHe
          exact hxr.setBlack_of_red
        · exact hb
      have hcompat : compatC (pstep :: rest) Color.black := fun _ => rfl
      obtain ⟨c2, hpl⟩ := isRB_plug _ _ Color.black H hr hp hxb hcompat
      exact ⟨c2, hr, hpl⟩
    · rw [dif_neg hx]
      rw [Bool.not_eq_true] at hx
      have hsh2 : ∃ hx2, H = hx2 + 1 ∧ IsRB x Color.black hx2 := by
        rcases hsh with ⟨cx, hx2, hHe, hxr⟩ | ⟨_, hxt, _⟩
        · exact ⟨hx2, hHe, (isRB_black_of_not_red hxr hx) ▸ hxr⟩
        · rw [hx] at hxt; cases hxt
      obtain ⟨hx2, hHe, hxb⟩ := hsh2
      subst hHe
      obtain ⟨⟨cs, hsib, hsc⟩, hnext, hrest⟩ := hp
      obtain ⟨pd, pc, pk, pv, ps⟩ := pstep
      dsimp only [] at hsib hsc hnext hrest ⊢
      cases pd with
      | left =>
        dsimp only []
        cases ps with
        | nil => cases hsib
        | node sc sl sk sv sr =>
          cases sc with
          | red =>
            dsimp only []
            obtain ⟨hcs, hsl, hsr⟩ := isRB_red_inv hsib
            have hpcb : pc = Color.black := by
              cases pc with
              | black => rfl
              | red => rw [hsc rfl] at hcs; cases hcs
            subst hpcb
            simp only [stepHeight] at hrest
            cases sl with
            | nil => exact absurd (isRB_nil_inv hsl).2 (by omega)
            | node slc a ak av b =>
              have hslc : slc = Color.black := by
                have h0 := hsl.rootColor_eq
                simpa [rootColor] using h0
              subst hslc
              obtain ⟨_, ca, cb, h2, hinj, ha, hb⟩ := isRB_black_inv hsl
              have hh2 : hx2 = h2 := by omega
              subst hh2
              dsimp only []
              have hpath2 : PathRBc (⟨Dir.left, Color.black, sk, sv, sr⟩ :: rest)
                  (hx2 + 1) hr False :=
                ⟨⟨Color.black, hsr, fun hcol => Color.noConfusion hcol⟩,
                  fun hcol => Color.noConfusion hcol, hrest⟩
              cases hcase : rbDelCaseL x Color.red pk pv a ak av b with
              | more sib2 =>
                obtain ⟨hsib2, hna, hnb⟩ := rbDelCaseL_more_eq hcase
                have hca : ca = Color.black := isRB_black_of_not_red ha hna
                have hcb : cb = Color.black := isRB_black_of_not_red hb hnb
                subst hca
                subst hcb
                have hsib2rb : IsRB sib2 Color.red hx2 := hsib2 ▸ IsRB.red ha hb
                refine rebalanceDelete_rb (RBTree.node Color.red x pk pv sib2)
                  (⟨Dir.left, Color.black, sk, sv, sr⟩ :: rest) (hx2 + 1) hr hpath2
                  (Or.inr ⟨by simp, rfl, ?_⟩)
                exact IsRB.black hxb hsib2rb
              | done sub =>
                rcases rbDelCaseL_done_eq hcase with
                  ⟨a1, alk, alv, a2, hae, hsube⟩ | ⟨hna, hnb, hsube⟩
                · subst hae
                  obtain ⟨hcar, ha1, ha2⟩ := isRB_red_inv ha
                  have hsubrb : IsRB sub Color.red (hx2 + 1) := by
                    rw [hsube]
                    exact IsRB.red (IsRB.black hxb ha1) (IsRB.black ha2 hb)
                  obtain ⟨c2, hpl⟩ := isRB_plug _ sub Color.red (hx2 + 1) hr hpath2 hsubrb
                    (fun hcol => Color.noConfusion hcol)
                  exact ⟨c2, hr, hpl⟩
                · have hcbr : cb = Color.red := (isRed_eq_true hb).mp hnb
                  have hcab : ca = Color.black := isRB_black_of_not_red ha hna
                  subst hcbr
                  subst hcab
                  have hsubrb : IsRB sub Color.red (hx2 + 1) := by
                    rw [hsube]
                    exact IsRB.red (IsRB.black hxb ha) hb.setBlack_of_red
                  obtain ⟨c2, hpl⟩ := isRB_plug _ sub Color.red (hx2 + 1) hr hpath2 hsubrb
                    (fun hcol => Color.noConfusion hcol)
                  exact ⟨c2, hr, hpl⟩
          | black =>
            dsimp only []
            obtain ⟨hcs, c1, c2x, h2, hinj, h1, h2x⟩ := isRB_black_inv hsib
            have hh2 : hx2 = h2 := by omega
            subst hh2
            cases hcase : rbDelCaseL x pc pk pv sl sk sv sr with
            | more sib2 =>
              obtain ⟨hsib2, hn1, hn2⟩ := rbDelCaseL_more_eq hcase
              have hc1 : c1 = Color.black := isRB_black_of_not_red h1 hn1
              have hc2 : c2x = Color.black := isRB_black_of_not_red h2x hn2
              subst hc1
              subst hc2
              have hsib2rb : IsRB sib2 Color.red hx2 := hsib2 ▸ IsRB.red h1 h2x
              cases hpc : pc with
              | black =>
                subst hpc
                simp only [stepHeight] at hrest
                exact rebalanceDelete_rb _ rest (hx2 + 2) hr hrest
                  (Or.inl ⟨Color.black, hx2 + 1, rfl, IsRB.black hxb hsib2rb⟩)
              | red =>
                subst hpc
                simp only [stepHeight] at hrest
                have hrne : rest ≠ [] := by
                  cases rest with
                  | nil => exact (hnext rfl).elim
                  | cons s2 r2 => simp
                exact rebalanceDelete_rb _ rest (hx2 + 1) hr hrest
                  (Or.inr ⟨hrne, rfl, IsRB.black hxb hsib2rb⟩)
            | done sub =>
              have hcompat2 : compatC rest pc := by
                cases hpcc : pc with
                | black =>
                  cases rest with
                  | nil => trivial
                  | cons s2 r2 => intro _; rfl
                | red =>
                  cases rest with
                  | nil => trivial
                  | cons s2 r2 =>
                    intro hs2
                    have hb2 : s2.color = Color.black := by
                      have := hnext hpcc
                      exact this
                    rw [hb2] at hs2
                    cases hs2
              rcases rbDelCaseL_done_eq hcase with
                ⟨a1, alk, alv, a2, hae, hsube⟩ | ⟨hn1, hn2, hsube⟩
              · subst hae
                obtain ⟨hc1r, ha1, ha2⟩ := isRB_red_inv h1
                cases hpc : pc with
                | black =>
                  subst hpc
                  simp only [stepHeight] at hrest
                  have hsubrb : IsRB sub Color.black (hx2 + 2) := by
                    rw [hsube]
                    exact IsRB.black (IsRB.black hxb ha1) (IsRB.black ha2 h2x)
                  obtain ⟨c2, hpl⟩ := isRB_plug _ sub Color.black (hx2 + 2) hr hrest hsubrb
                    hcompat2
                  exact ⟨c2, hr, hpl⟩
                | red =>
                  subst hpc
                  simp only [stepHeight] at hrest
                  have hsubrb : IsRB sub Color.red (hx2 + 1) := by
                    rw [hsube]
                    exact IsRB.red (IsRB.black hxb ha1) (IsRB.black ha2 h2x)
                  obtain ⟨c2, hpl⟩ := isRB_plug _ sub Color.red (hx2 + 1) hr hrest hsubrb
                    hcompat2
                  exact ⟨c2, hr, hpl⟩
              · have hc2r : c2x = Color.red := (isRed_eq_true h2x).mp hn2
                have hc1b : c1 = Color.black := isRB_black_of_not_red h1 hn1
                subst hc2r
                subst hc1b
                cases hpc : pc with
                | black =>
                  subst hpc
                  simp only [stepHeight] at hrest
                  have hsubrb : IsRB sub Color.black (hx2 + 2) := by
                    rw [hsube]
                    exact IsRB.black (IsRB.black hxb h1) h2x.setBlack_of_red
                  obtain ⟨c2, hpl⟩ := isRB_plug _ sub Color.black (hx2 + 2) hr hrest hsubrb
                    hcompat2
                  exact ⟨c2, hr, hpl⟩
                | red =>
                  subst hpc
                  simp only [stepHeight] at hrest
                  have hsubrb : IsRB sub Color.red (hx2 + 1) := by
                    rw [hsube]
                    exact IsRB.red (IsRB.black hxb h1) h2x.setBlack_of_red
                  obtain ⟨c2, hpl⟩ := isRB_plug _ sub Color.red (hx2 + 1) hr hrest hsubrb
                    hcompat2
                  exact ⟨c2, hr, hpl⟩
      | right =>
        dsimp only []
        cases ps with
        | nil => cases hsib
        | node sc sl sk sv sr =>
          cases sc with
          | red =>
            dsimp only []
            obtain ⟨hcs, hsl, hsr⟩ := isRB_red_inv hsib
            have hpcb : pc = Color.black := by
              cases pc with
              | black => rfl
              | red => rw [hsc rfl] at hcs; cases hcs
            subst hpcb
            simp only [stepHeight] at hrest
            cases sr with
            | nil => exact absurd (isRB_nil_inv hsr).2 (by omega)
            | node src c2t rk rv d =>
              have hsrc : src = Color.black := by
                have h0 := hsr.rootColor_eq
                simpa [rootColor] using h0
              subst hsrc
              obtain ⟨_, cc2, cd, h2, hinj, hc2t, hd⟩ := isRB_black_inv hsr
              have hh2 : hx2 = h2 := by omega
              subst hh2
              dsimp only []
              have hpath2 : PathRBc (⟨Dir.right, Color.black, sk, sv, sl⟩ :: rest)
                  (hx2 + 1) hr False :=
                ⟨⟨Color.black, hsl, fun hcol => Color.noConfusion hcol⟩,
                  fun hcol => Color.noConfusion hcol, hrest⟩
              cases hcase : rbDelCaseR x Color.red pk pv c2t rk rv d with
              | more sib2 =>
                obtain ⟨hsib2, hnc, hnd⟩ := rbDelCaseR_more_eq hcase
                have hcc : cc2 = Color.black := isRB_black_of_not_red hc2t hnc
                have hcd : cd = Color.black := isRB_black_of_not_red hd hnd
                subst hcc
                subst hcd
                have hsib2rb : IsRB sib2 Color.red hx2 := hsib2 ▸ IsRB.red hc2t hd
                refine rebalanceDelete_rb (RBTree.node Color.red sib2 pk pv x)
                  (⟨Dir.right, Color.black, sk, sv, sl⟩ :: rest) (hx2 + 1) hr hpath2
                  (Or.inr ⟨by simp, rfl, ?_⟩)
                exact IsRB.black hsib2rb hxb
              | done sub =>
                rcases rbDelCaseR_done_eq hcase with
                  ⟨d1, dk, dv, d2, hde, hsube⟩ | ⟨hnd, hnc, hsube⟩
                · subst hde
                  obtain ⟨hcdr, hd1, hd2⟩ := isRB_red_inv hd
                  have hsubrb : IsRB sub Color.red (hx2 + 1) := by
                    rw [hsube]
                    exact IsRB.red (IsRB.black hc2t hd1) (IsRB.black hd2 hxb)
                  obtain ⟨c2, hpl⟩ := isRB_plug _ sub Color.red (hx2 + 1) hr hpath2 hsubrb
                    (fun hcol => Color.noConfusion hcol)
                  exact ⟨c2, hr, hpl⟩
                · have hccr : cc2 = Color.red := (isRed_eq_true hc2t).mp hnc
                  have hcdb : cd = Color.black := isRB_black_of_not_red hd hnd
                  subst hccr
                  subst hcdb
                  have hsubrb : IsRB sub Color.red (hx2 + 1) := by
                    rw [hsube]
                    exact IsRB.red hc2t.setBlack_of_red (IsRB.black hd hxb)
                  obtain ⟨c2, hpl⟩ := isRB_plug _ sub Color.red (hx2 + 1) hr hpath2 hsubrb
                    (fun hcol => Color.noConfusion hcol)
                  exact ⟨c2, hr, hpl⟩
          | black =>
            dsimp only []
            obtain ⟨hcs, c1, c2x, h2, hinj, h1, h2x⟩ := isRB_black_inv hsib
            have hh2 : hx2 = h2 := by omega
            subst hh2
            have hcompat2 : compatC rest pc := by
              cases hpcc : pc with
              | black =>
                cases rest with
                | nil => trivial
                | cons s2 r2 => intro _; rfl
              | red =>
                cases rest with
                | nil => trivial
                | cons s2 r2 =>
                  intro hs2
                  have hb2 : s2.color = Color.black := hnext hpcc
                  rw [hb2] at hs2
                  cases hs2
            cases hcase : rbDelCaseR x pc pk pv sl sk sv sr with
            | more sib2 =>
              obtain ⟨hsib2, hn1, hn2⟩ := rbDelCaseR_more_eq hcase
              have hc1 : c1 = Color.black := isRB_black_of_not_red h1 hn1
              have hc2 : c2x = Color.black := isRB_black_of_not_red h2x hn2
              subst hc1
              subst hc2
              have hsib2rb : IsRB sib2 Color.red hx2 := hsib2 ▸ IsRB.red h1 h2x
              cases hpc : pc with
              | black =>
                subst hpc
                simp only [stepHeight] at hrest
                exact rebalanceDelete_rb _ rest (hx2 + 2) hr hrest
                  (Or.inl ⟨Color.black, hx2 + 1, rfl, IsRB.black hsib2rb hxb⟩)
              | red =>
                subst hpc
                simp only [stepHeight] at hrest
                have hrne : rest ≠ [] := by
                  cases rest with
                  | nil => exact (hnext rfl).elim
                  | cons s2 r2 => simp
                exact rebalanceDelete_rb _ rest (hx2 + 1) hr hrest
                  (Or.inr ⟨hrne, rfl, IsRB.black hsib2rb hxb⟩)
            | done sub =>
              rcases rbDelCaseR_done_eq hcase with
                ⟨d1, dk, dv, d2, hde, hsube⟩ | ⟨hn2, hn1, hsube⟩
              · subst hde
                obtain ⟨hc2r, hd1, hd2⟩ := isRB_red_inv h2x
                cases hpc : pc with
                | black =>
                  subst hpc
                  simp only [stepHeight] at hrest
                  have hsubrb : IsRB sub Color.black (hx2 + 2) := by
                    rw [hsube]
                    exact IsRB.black (IsRB.black h1 hd1) (IsRB.black hd2 hxb)
                  obtain ⟨c2, hpl⟩ := isRB_plug _ sub Color.black (hx2 + 2) hr hrest hsubrb
                    hcompat2
                  exact ⟨c2, hr, hpl⟩
                | red =>
                  subst hpc
                  simp only [stepHeight] at hrest
                  have hsubrb : IsRB sub Color.red (hx2 + 1) := by
                    rw [hsube]
                    exact IsRB.red (IsRB.black h1 hd1) (IsRB.black hd2 hxb)
                  obtain ⟨c2, hpl⟩ := isRB_plug _ sub Color.red (hx2 + 1) hr hrest hsubrb
                    hcompat2
                  exact ⟨c2, hr, hpl⟩
              · have hc1r : c1 = Color.red := (isRed_eq_true h1).mp hn1
                have hc2b : c2x = Color.black := isRB_black_of_not_red h2x hn2
                subst hc1r
                subst hc2b
                cases hpc : pc with
                | black =>
                  subst hpc
                  simp only [stepHeight] at hrest
                  have hsubrb : IsRB sub Color.black (hx2 + 2) := by
                    rw [hsube]
                    exact IsRB.black h1.setBlack_of_red (IsRB.black h2x hxb)
                  obtain ⟨c2, hpl⟩ := isRB_plug _ sub Color.black (hx2 + 2) hr hrest hsubrb
                    hcompat2
                  exact ⟨c2, hr, hpl⟩
                | red =>
                  subst hpc
                  simp only [stepHeight] at hrest
                  have hsubrb : IsRB sub Color.red (hx2 + 1) := by
                    rw [hsube]
                    exact IsRB.red h1.setBlack_of_red (IsRB.black h2x hxb)
                  obtain ⟨c2, hpl⟩ := isRB_plug _ sub Color.red (hx2 + 1) hr hrest hsubrb
                    hcompat2
                  exact ⟨c2, hr, hpl⟩
termination_by x path => 2 * path.length + (if isRed x then 0 else 1)
decreasing_by
  all_goals simp_all only [isRed, List.length_cons, Bool.not_eq_true, if_neg, Bool.false_eq_true,
    not_false_eq_true, if_true, if_false]
  all_goals first
  | omega
  | (split <;> omega)


/-! ## The successor descent (`leftmostZ`) as a zipper -/

theorem leftmostZ_plug {K V : Type} :
    ∀ t : RBTree K V, plug (leftmostZ t).1 (leftmostZ t).2 = t
  | RBTree.nil => rfl
  | RBTree.node c RBTree.nil k v r => rfl
  | RBTree.node c (RBTree.node lc ll lk lv lr) k v r => by
    rw [leftmostZ]
    dsimp only []
    rw [plug_append, leftmostZ_plug (RBTree.node lc ll lk lv lr)]
    rfl

theorem leftmostZ_pathEL {K V : Type} :
    ∀ t : RBTree K V, pathEL (leftmostZ t).2 = []
  | RBTree.nil => rfl
  | RBTree.node c RBTree.nil k v r => rfl
  | RBTree.node c (RBTree.node lc ll lk lv lr) k v r => by
    rw [leftmostZ]
    dsimp only []
    rw [pathEL_append, leftmostZ_pathEL (RBTree.node lc ll lk lv lr)]
    rfl

theorem leftmostZ_shape {K V : Type} :
    ∀ (l : RBTree K V) (c : Color) (k : K) (v : V) (r : RBTree K V),
      ∃ sc sk sv sr, (leftmostZ (RBTree.node c l k v r)).1 =
        RBTree.node sc RBTree.nil sk sv sr
  | RBTree.nil, c, k, v, r => ⟨c, k, v, r, rfl⟩
  | RBTree.node lc ll lk lv lr, c, k, v, r => by
    rw [leftmostZ]
    dsimp only []
    obtain ⟨sc, sk, sv, sr, he⟩ := leftmostZ_shape ll lc lk lv lr
    exact ⟨sc, sk, sv, sr, he⟩

theorem headIsBlack_append_left {K V : Type} (p q : Path K V) (hne : p ≠ []) :
    headIsBlack (p ++ q) ↔ headIsBlack p := by
  cases p with
  | nil => exact absurd rfl hne
  | cons s rest => rfl

/-- The leftmost descent yields a valid zipper: the focused leftmost node is
well-formed and its (left-only) ancestor path is a valid context. -/
theorem leftmostZ_zipper {K V : Type} :
    ∀ (t : RBTree K V) (ct : Color) (h : Nat) (nb : Prop),
      IsRB t ct h → (ct = Color.red → nb) →
      ∃ cs hs, IsRB (leftmostZ t).1 cs hs ∧ PathRBc (leftmostZ t).2 hs h nb ∧
        (cs = Color.red → headIsBlack (leftmostZ t).2 ∨ (leftmostZ t).2 = []) ∧
        ((leftmostZ t).2 = [] → (leftmostZ t).1 = t)
  | RBTree.nil, ct, h, nb, ht, _ => by
    obtain ⟨hcb, hh0⟩ := isRB_nil_inv ht
    subst hcb
    subst hh0
    exact ⟨Color.black, 0, IsRB.nil, rfl, fun hcol => Color.noConfusion hcol, fun _ => rfl⟩
  | RBTree.node c RBTree.nil k v r, ct, h, nb, ht, _ => by
    exact ⟨ct, h, ht, rfl, fun _ => Or.inr rfl, fun _ => rfl⟩
  | RBTree.node c (RBTree.node lc ll lk lv lr) k v r, ct, h, nb, ht, hnb => by
    rw [leftmostZ]
    dsimp only []
    cases c with
    | red =>
      obtain ⟨hcr, hl, hr⟩ := isRB_red_inv ht
      subst hcr
      obtain ⟨cs, hs, hfoc, hpath, hcs, hnil⟩ :=
        leftmostZ_zipper (RBTree.node lc ll lk lv lr) Color.black h
          ((⟨Dir.left, Color.red, k, v, r⟩ : PathStep K V).color = Color.black)
          hl (fun hcol => Color.noConfusion hcol)
      refine ⟨cs, hs, hfoc, ?_, ?_, ?_⟩
      · refine PathRBc_append _ _ hs h _ nb hpath ?_
        exact pathRBc_single _ h nb Color.black hr (fun _ => rfl) (fun _ => hnb rfl)
      · intro hcsr
        rcases hcs hcsr with hhb | hpe
        · left
          rw [headIsBlack_append_left]
          · exact hhb
          · intro hpe2
            rw [hpe2] at hhb
            exact hhb
        · -- the focus equals the red-rooted... the left child is black-rooted,
          -- so a red focus with an empty relative path is impossible
          have hfe := hnil hpe
          rw [hfe] at hfoc
          have : cs = Color.black := by
            have h0 := hfoc.rootColor_eq
            simp only [rootColor] at h0
            -- rootColor of (node lc ...) is lc; IsRB at Color.black forces lc = black
            have h1 := hl.rootColor_eq
            simp only [rootColor] at h1
            rw [h1] at h0
            exact h0.symm
          rw [this] at hcsr
          cases hcsr
      · intro happ
        exact absurd happ (by simp)
    | black =>
      obtain ⟨hcb, cl, cr, h2, hh, hl, hr⟩ := isRB_black_inv ht
      subst hcb
      subst hh
      obtain ⟨cs, hs, hfoc, hpath, hcs, hnil⟩ :=
        leftmostZ_zipper (RBTree.node lc ll lk lv lr) cl h2
          ((⟨Dir.left, Color.black, k, v, r⟩ : PathStep K V).color = Color.black)
          hl (fun _ => rfl)
      refine ⟨cs, hs, hfoc, ?_, ?_, ?_⟩
      · refine PathRBc_append _ _ hs h2 _ nb hpath ?_
        exact pathRBc_single _ h2 nb cr hr (fun hcol => Color.noConfusion hcol)
          (fun hcol => Color.noConfusion hcol)
      · intro hcsr
        rcases hcs hcsr with hhb | hpe
        · left
          rw [headIsBlack_append_left]
          · exact hhb
          · intro hpe2
            rw [hpe2] at hhb
            exact hhb
        · left
          rw [hpe]
          rfl
      · intro happ
        exact absurd happ (by simp)


/-! ## deleteNode: entries and red-black preservation -/

/-- Deleting a focused node removes exactly its root pair from the in-order
entries (the two-children case moves the successor's pair into the focus
position first, which leaves the flattened sequence unchanged). -/
theorem entries_deleteNode {K V : Type} :
    ∀ (l : RBTree K V) (r : RBTree K V) (c : Color) (k : K) (v : V) (path : Path K V),
      entries (deleteNode (RBTree.node c l k v r) path) =
        pathEL path ++ entries l ++ entries r ++ pathER path
  | RBTree.nil, RBTree.nil, c, k, v, path => by
    rw [deleteNode]
    by_cases hc : c = Color.black
    · rw [if_pos hc, entries_rebalanceDelete]
      simp [entries]
    · rw [if_neg hc, entries_plug]
      simp [entries]
  | RBTree.node lc ll lk lv lr, RBTree.nil, c, k, v, path => by
    rw [deleteNode]
    by_cases hc : c = Color.black
    · rw [if_pos hc, entries_rebalanceDelete]
      simp [entries]
    · rw [if_neg hc, entries_plug]
      simp [entries]
  | RBTree.nil, RBTree.node rc rl rk rv rr, c, k, v, path => by
    rw [deleteNode]
    by_cases hc : c = Color.black
    · rw [if_pos hc, entries_rebalanceDelete]
      simp [entries]
    · rw [if_neg hc, entries_plug]
      simp [entries]
  | RBTree.node lc ll lk lv lr, RBTree.node rc rl rk rv rr, c, k, v, path => by
    obtain ⟨sc, sk, sv, sr, hsh⟩ := leftmostZ_shape rl rc rk rv rr
    rw [deleteNode]
    set R := RBTree.node rc rl rk rv rr with hR
    set sp := (leftmostZ R).2 with hsp
    have hlm : leftmostZ R = (RBTree.node sc RBTree.nil sk sv sr, sp) := by
      rw [hsp]
      exact Prod.ext hsh rfl
    rw [hlm]
    dsimp only []
    have hrec := entries_deleteNode RBTree.nil sr sc k v
      (sp ++ ⟨Dir.right, c, sk, sv, RBTree.node lc ll lk lv lr⟩ :: path)
    rw [hrec]
    have hrent : entries R = (sk, sv) :: entries sr ++ pathER sp := by
      have h1 : entries (plug (leftmostZ R).1 (leftmostZ R).2) = entries R := by
        rw [leftmostZ_plug]
      rw [entries_plug, leftmostZ_pathEL, hlm] at h1
      dsimp only [] at h1
      rw [← h1]
      simp [entries]
    rw [hrent]
    have hspel : pathEL sp = [] := by
      rw [hsp]
      exact leftmostZ_pathEL R
    rw [pathEL_append, pathER_append, hspel]
    simp [pathEL, pathER, entries, List.append_assoc]
termination_by l r _ _ _ _ => l.size + r.size
decreasing_by
  have hle := leftmostZ_size_le (RBTree.node rc rl rk rv rr)
  rw [hlm] at hle
  simp only [RBTree.size] at hle ⊢
  omega


theorem compatC_black {K V : Type} : ∀ path : Path K V, compatC path Color.black
  | [] => trivial
  | _ :: _ => fun _ => rfl

theorem isRB_zero_node_red {K V : Type} {lc : Color} {ll : RBTree K V} {lk : K} {lv : V}
    {lr : RBTree K V} {cl : Color}
    (hl : IsRB (RBTree.node lc ll lk lv lr) cl 0) :
    lc = Color.red ∧ cl = Color.red ∧ IsRB (RBTree.node lc ll lk lv lr) Color.red 0 := by
  cases hl with
  | red h1 h2 => exact ⟨rfl, rfl, IsRB.red h1 h2⟩

/-- Deleting a node from a valid zipper cut out of a red-black tree yields a
valid red-black tree. -/
theorem deleteNode_rb {K V : Type} :
    ∀ (t : RBTree K V) (path : Path K V) (cf : Color) (h hr : Nat),
      PathRBc path h hr False → IsRB t cf h → (cf = Color.red → headIsBlack path) →
      ∃ c2 h2, IsRB (deleteNode t path) c2 h2
  | RBTree.nil, path, cf, h, hr, hp, ht, _ => by
    obtain ⟨hcb, hh0⟩ := isRB_nil_inv ht
    subst hh0
    rw [deleteNode]
    obtain ⟨c2, hpl⟩ := isRB_plug path RBTree.nil Color.black 0 hr hp IsRB.nil
      (compatC_black path)
    exact ⟨c2, hr, hpl⟩
  | RBTree.node c RBTree.nil k v RBTree.nil, path, cf, h, hr, hp, ht, _ => by
    rw [deleteNode]
    cases c with
    | black =>
      rw [if_pos rfl]
      obtain ⟨hcb, cl, cr, h2, hh, hl, hrn⟩ := isRB_black_inv ht
      have hh2 : h2 = 0 := (isRB_nil_inv hl).2
      subst hh2
      subst hh
      exact rebalanceDelete_rb RBTree.nil path 1 hr hp (Or.inl ⟨Color.black, 0, rfl, IsRB.nil⟩)
    | red =>
      rw [if_neg (by intro hcol; cases hcol)]
      obtain ⟨hcr, hl, hrn⟩ := isRB_red_inv ht
      have hh0 : h = 0 := (isRB_nil_inv hl).2
      subst hh0
      obtain ⟨c2, hpl⟩ := isRB_plug path RBTree.nil Color.black 0 hr hp IsRB.nil
        (compatC_black path)
      exact ⟨c2, hr, hpl⟩
  | RBTree.node c (RBTree.node lc ll lk lv lr) k v RBTree.nil, path, cf, h, hr, hp, ht,
      _ => by
    rw [deleteNode]
    cases c with
    | black =>
      rw [if_pos rfl]
      obtain ⟨hcb, cl, cr, h2, hh, hl, hrn⟩ := isRB_black_inv ht
      have hh2 : h2 = 0 := (isRB_nil_inv hrn).2
      subst hh2
      subst hh
      obtain ⟨hlcr, hclr, hlred⟩ := isRB_zero_node_red hl
      exact rebalanceDelete_rb _ path 1 hr hp (Or.inl ⟨Color.red, 0, rfl, hlred⟩)
    | red =>
      obtain ⟨hcr, hl, hrn⟩ := isRB_red_inv ht
      have hh0 : h = 0 := (isRB_nil_inv hrn).2
      subst hh0
      obtain ⟨hlcr, hclr, hlred⟩ := isRB_zero_node_red hl
      exact Color.noConfusion hclr
  | RBTree.node c RBTree.nil k v (RBTree.node rc rl rk rv rr), path, cf, h, hr, hp, ht,
      _ => by
    rw [deleteNode]
    cases c with
    | black =>
      rw [if_pos rfl]
      obtain ⟨hcb, cl, cr, h2, hh, hln, hrn⟩ := isRB_black_inv ht
      have hh2 : h2 = 0 := (isRB_nil_inv hln).2
      subst hh2
      subst hh
      obtain ⟨hrcr, hcrr, hrred⟩ := isRB_zero_node_red hrn
      exact rebalanceDelete_rb _ path 1 hr hp (Or.inl ⟨Color.red, 0, rfl, hrred⟩)
    | red =>
      obtain ⟨hcr, hln, hrn⟩ := isRB_red_inv ht
      have hh0 : h = 0 := (isRB_nil_inv hln).2
      subst hh0
      obtain ⟨hrcr, hcrr, hrred⟩ := isRB_zero_node_red hrn
      exact Color.noConfusion hcrr
  | RBTree.node c (RBTree.node lc ll lk lv lr) k v (RBTree.node rc rl rk rv rr), path,
      cf, h, hr, hp, ht, hredok => by
    obtain ⟨sc, sk, sv, sr, hsh⟩ := leftmostZ_shape rl rc rk rv rr
    rw [deleteNode]
    set L := RBTree.node lc ll lk lv lr with hL
    set R := RBTree.node rc rl rk rv rr with hR
    set sp := (leftmostZ R).2 with hsp
    have hlm : leftmostZ R = (RBTree.node sc RBTree.nil sk sv sr, sp) := Prod.ext hsh rfl
    rw [hlm]
    dsimp only []
    cases c with
    | red =>
      obtain ⟨hcfr, hl, hrt⟩ := isRB_red_inv ht
      obtain ⟨cs, hs, hfoc, hpsp, hcsred, hspnil⟩ := leftmostZ_zipper R Color.black h
        ((⟨Dir.right, Color.red, sk, sv, L⟩ : PathStep K V).color = Color.black)
        hrt (fun hcol => Color.noConfusion hcol)
      rw [hsh] at hfoc
      rw [← hsp] at hpsp hcsred hspnil
      have hstep : PathRBc (⟨Dir.right, Color.red, sk, sv, L⟩ :: path) h hr False := by
        refine ⟨⟨Color.black, hl, fun _ => rfl⟩, ?_, hp⟩
        intro _
        cases path with
        | nil => exact hredok hcfr
        | cons s2 r2 => exact hredok hcfr
      have hspath : PathRBc (sp ++ ⟨Dir.right, Color.red, sk, sv, L⟩ :: path) hs hr False :=
        PathRBc_append sp _ hs h hr False hpsp hstep
      have hredok2 : cs = Color.red →
          headIsBlack (sp ++ ⟨Dir.right, Color.red, sk, sv, L⟩ :: path) := by
        intro hcsr
        rcases hcsred hcsr with hhb | hpe
        · have hne : sp ≠ [] := by
            intro he
            rw [he] at hhb
            exact hhb
          exact (headIsBlack_append_left sp _ hne).mpr hhb
        · have hReq : R = RBTree.node sc RBTree.nil sk sv sr := ((hspnil hpe).symm).trans hsh
          have hrt2 : IsRB (RBTree.node sc RBTree.nil sk sv sr) Color.black h := hReq ▸ hrt
          have h1 := hfoc.rootColor_eq
          have h2 := hrt2.rootColor_eq
          simp only [rootColor] at h1 h2
          rw [← h1, h2] at hcsr
          cases hcsr
      exact deleteNode_rb (RBTree.node sc RBTree.nil k v sr) _ cs hs hr hspath
        (hfoc.retag k v) hredok2
    | black =>
      obtain ⟨hcfb, cl, cr, h2, hh, hl, hrt⟩ := isRB_black_inv ht
      subst hh
      obtain ⟨cs, hs, hfoc, hpsp, hcsred, hspnil⟩ := leftmostZ_zipper R cr h2
        ((⟨Dir.right, Color.black, sk, sv, L⟩ : PathStep K V).color = Color.black)
        hrt (fun _ => rfl)
      rw [hsh] at hfoc
      rw [← hsp] at hpsp hcsred hspnil
      have hstep : PathRBc (⟨Dir.right, Color.black, sk, sv, L⟩ :: path) h2 hr False := by
        refine ⟨⟨cl, hl, fun hcol => Color.noConfusion hcol⟩, ?_, hp⟩
        intro hcol
        exact Color.noConfusion hcol
      have hspath : PathRBc (sp ++ ⟨Dir.right, Color.black, sk, sv, L⟩ :: path) hs hr
          False := PathRBc_append sp _ hs h2 hr False hpsp hstep
      have hredok2 : cs = Color.red →
          headIsBlack (sp ++ ⟨Dir.right, Color.black, sk, sv, L⟩ :: path) := by
        intro hcsr
        rcases hcsred hcsr with hhb | hpe
        · have hne : sp ≠ [] := by
            intro he
            rw [he] at hhb
            exact hhb
          exact (headIsBlack_append_left sp _ hne).mpr hhb
        · rw [hpe]
          rfl
      exact deleteNode_rb (RBTree.node sc RBTree.nil k v sr) _ cs hs hr hspath
        (hfoc.retag k v) hredok2
termination_by t _ _ _ _ => t.size
decreasing_by
  all_goals
    have hle := leftmostZ_size_le (RBTree.node rc rl rk rv rr)
  all_goals rw [hlm] at hle
  all_goals simp only [RBTree.size] at hle ⊢
  all_goals omega


/-! ## findNodeZ: agreement with findNode and zipper validity -/

theorem findNodeZ_map_fst {K V : Type} (cmp : K → K → Int) (beq : K → K → Bool) (key : K) :
    ∀ t : RBTree K V, (findNodeZ cmp beq t key).map Prod.fst = findNode cmp beq t key
  | RBTree.nil => rfl
  | RBTree.node c l k v r => by
    rw [findNodeZ, findNode]
    by_cases hbeq : beq k key
    · rw [if_pos hbeq, if_pos hbeq]
      rfl
    · rw [if_neg hbeq, if_neg hbeq]
      by_cases hgt : cmp key k > 0
      · rw [if_pos hgt, if_pos hgt, Option.map_map]
        exact findNodeZ_map_fst cmp beq key r
      · rw [if_neg hgt, if_neg hgt, Option.map_map]
        exact findNodeZ_map_fst cmp beq key l

theorem findNodeZ_plug {K V : Type} (cmp : K → K → Int) (beq : K → K → Bool) (key : K) :
    ∀ (t f : RBTree K V) (p : Path K V),
      findNodeZ cmp beq t key = some (f, p) → plug f p = t
  | RBTree.nil, f, p, hf => by simp [findNodeZ] at hf
  | RBTree.node c l k v r, f, p, hf => by
    rw [findNodeZ] at hf
    by_cases hbeq : beq k key
    · rw [if_pos hbeq] at hf
      obtain ⟨he1, he2⟩ := Prod.mk.injEq .. ▸ Option.some_inj.mp hf
      rw [← he1, ← he2]
      rfl
    · rw [if_neg hbeq] at hf
      by_cases hgt : cmp key k > 0
      · rw [if_pos hgt] at hf
        obtain ⟨⟨f0, p0⟩, hf0, he⟩ := Option.map_eq_some'.mp hf
        obtain ⟨he1, he2⟩ := Prod.mk.injEq .. ▸ he
        rw [← he1, ← he2, plug_append, findNodeZ_plug cmp beq key r f0 p0 hf0]
        rfl
      · rw [if_neg hgt] at hf
        obtain ⟨⟨f0, p0⟩, hf0, he⟩ := Option.map_eq_some'.mp hf
        obtain ⟨he1, he2⟩ := Prod.mk.injEq .. ▸ he
        rw [← he1, ← he2, plug_append, findNodeZ_plug cmp beq key l f0 p0 hf0]
        rfl

/-- The zipper returned by the search is a valid red-black context. -/
theorem findNodeZ_zipper {K V : Type} (cmp : K → K → Int) (beq : K → K → Bool) (key : K) :
    ∀ (t f : RBTree K V) (p : Path K V) (ct : Color) (h : Nat) (nb : Prop),
      IsRB t ct h → findNodeZ cmp beq t key = some (f, p) → (ct = Color.red → nb) →
      ∃ cf hf, IsRB f cf hf ∧ PathRBc p hf h nb ∧
        (cf = Color.red → headIsBlack p ∨ p = []) ∧ (p = [] → f = t)
  | RBTree.nil, f, p, ct, h, nb, ht, hf, _ => by simp [findNodeZ] at hf
  | RBTree.node c l k v r, f, p, ct, h, nb, ht, hf, hnb => by
    rw [findNodeZ] at hf
    by_cases hbeq : beq k key
    · rw [if_pos hbeq] at hf
      obtain ⟨he1, he2⟩ := Prod.mk.injEq .. ▸ Option.some_inj.mp hf
      rw [← he1, ← he2]
      exact ⟨ct, h, ht, rfl, fun _ => Or.inr rfl, fun _ => rfl⟩
    · rw [if_neg hbeq] at hf
      by_cases hgt : cmp key k > 0
      · rw [if_pos hgt] at hf
        obtain ⟨⟨f0, p0⟩, hf0, he⟩ := Option.map_eq_some'.mp hf
        obtain ⟨he1, he2⟩ := Prod.mk.injEq .. ▸ he
        subst he1
        subst he2
        cases c with
        | red =>
          obtain ⟨hctr, hl, hrt⟩ := isRB_red_inv ht
          obtain ⟨cf, hfh, hfoc, hpath, hcf, hnil⟩ := findNodeZ_zipper cmp beq key r f0 p0
            Color.black h ((⟨Dir.right, Color.red, k, v, l⟩ : PathStep K V).color =
              Color.black) hrt hf0 (fun hcol => Color.noConfusion hcol)
          refine ⟨cf, hfh, hfoc, ?_, ?_, ?_⟩
          · refine PathRBc_append _ _ hfh h _ nb hpath ?_
            exact pathRBc_single _ h nb Color.black hl (fun _ => rfl) (fun _ => hnb hctr)
          · intro hcfr
            rcases hcf hcfr with hhb | hpe
            · left
              have hne : p0 ≠ [] := by
                intro hee
                rw [hee] at hhb
                exact hhb
              exact (headIsBlack_append_left p0 _ hne).mpr hhb
            · have hfe := hnil hpe
              rw [hfe] at hfoc
              have h1 := hfoc.rootColor_eq
              have h2 := hrt.rootColor_eq
              rw [h2] at h1
              rw [← h1] at hcfr
              cases hcfr
          · intro happ
            exact absurd happ (by simp)
        | black =>
          obtain ⟨hctb, cl, cr, h2, hh, hl, hrt⟩ := isRB_black_inv ht
          subst hh
          obtain ⟨cf, hfh, hfoc, hpath, hcf, hnil⟩ := findNodeZ_zipper cmp beq key r f0 p0
            cr h2 ((⟨Dir.right, Color.black, k, v, l⟩ : PathStep K V).color =
              Color.black) hrt hf0 (fun _ => rfl)
          refine ⟨cf, hfh, hfoc, ?_, ?_, ?_⟩
          · refine PathRBc_append _ _ hfh h2 _ nb hpath ?_
            exact pathRBc_single _ h2 nb cl hl (fun hcol => Color.noConfusion hcol)
              (fun hcol => Color.noConfusion hcol)
          · intro hcfr
            rcases hcf hcfr with hhb | hpe
            · left
              have hne : p0 ≠ [] := by
                intro hee
                rw [hee] at hhb
                exact hhb
              exact (headIsBlack_append_left p0 _ hne).mpr hhb
            · left
              rw [hpe]
              rfl
          · intro happ
            exact absurd happ (by simp)
      · rw [if_neg hgt] at hf
        obtain ⟨⟨f0, p0⟩, hf0, he⟩ := Option.map_eq_some'.mp hf
        obtain ⟨he1, he2⟩ := Prod.mk.injEq .. ▸ he
        subst he1
        subst he2
        cases c with
        | red =>
          obtain ⟨hctr, hl, hrt⟩ := isRB_red_inv ht
          obtain ⟨cf, hfh, hfoc, hpath, hcf, hnil⟩ := findNodeZ_zipper cmp beq key l f0 p0
            Color.black h ((⟨Dir.left, Color.red, k, v, r⟩ : PathStep K V).color =
              Color.black) hl hf0 (fun hcol => Color.noConfusion hcol)
          refine ⟨cf, hfh, hfoc, ?_, ?_, ?_⟩
          · refine PathRBc_append _ _ hfh h _ nb hpath ?_
            exact pathRBc_single _ h nb Color.black hrt (fun _ => rfl) (fun _ => hnb hctr)
          · intro hcfr
            rcases hcf hcfr with hhb | hpe
            · left
              have hne : p0 ≠ [] := by
                intro hee
                rw [hee] at hhb
                exact hhb
              exact (headIsBlack_append_left p0 _ hne).mpr hhb
            · have hfe := hnil hpe
              rw [hfe] at hfoc
              have h1 := hfoc.rootColor_eq
              have h2 := hl.rootColor_eq
              rw [h2] at h1
              rw [← h1] at hcfr
              cases hcfr
          · intro happ
            exact absurd happ (by simp)
        | black =>
          obtain ⟨hctb, cl, cr, h2, hh, hl, hrt⟩ := isRB_black_inv ht
          subst hh
          obtain ⟨cf, hfh, hfoc, hpath, hcf, hnil⟩ := findNodeZ_zipper cmp beq key l f0 p0
            cl h2 ((⟨Dir.left, Color.black, k, v, r⟩ : PathStep K V).color =
              Color.black) hl hf0 (fun _ => rfl)
          refine ⟨cf, hfh, hfoc, ?_, ?_, ?_⟩
          · refine PathRBc_append _ _ hfh h2 _ nb hpath ?_
            exact pathRBc_single _ h2 nb cr hrt (fun hcol => Color.noConfusion hcol)
              (fun hcol => Color.noConfusion hcol)
          · intro hcfr
            rcases hcf hcfr with hhb | hpe
            · left
              have hne : p0 ≠ [] := by
                intro hee
                rw [hee] at hhb
                exact hhb
              exact (headIsBlack_append_left p0 _ hne).mpr hhb
            · left
              rw [hpe]
              rfl
          · intro happ
            exact absurd happ (by simp)


/-! ## Order facts and search completeness -/

theorem cmp_self {K : Type} {cmp : K → K → Int} (laws : CmpLaws cmp) (a : K) :
    cmp a a = 0 := by
  have h := laws.asymm a a
  omega

theorem cmp_zero_symm {K : Type} {cmp : K → K → Int} (laws : CmpLaws cmp) {a b : K}
    (h : cmp a b = 0) : cmp b a = 0 := by
  have h1 := laws.asymm a b
  have h2 := laws.asymm b a
  omega

theorem pairwise_eq_of_not_rel {α : Type} {R : α → α → Prop} :
    ∀ l : List α, List.Pairwise R l → ∀ p ∈ l, ∀ q ∈ l, ¬R p q → ¬R q p → p = q
  | [], _, p, hp, _, _, _, _ => absurd hp (List.not_mem_nil p)
  | a :: rest, hpw, p, hp, q, hq, hnpq, hnqp => by
    rw [List.pairwise_cons] at hpw
    obtain ⟨ha, hrest⟩ := hpw
    rcases List.mem_cons.mp hp with hp1 | hp1
    · rcases List.mem_cons.mp hq with hq1 | hq1
      · rw [hp1, hq1]
      · subst hp1
        exact absurd (ha q hq1) hnpq
    · rcases List.mem_cons.mp hq with hq1 | hq1
      · subst hq1
        exact absurd (ha p hp1) hnqp
      · exact pairwise_eq_of_not_rel rest hrest p hp1 q hq1 hnpq hnqp

/-- Search completeness: in a tree with strictly ascending in-order keys, a
stored pair whose key compares equal to the searched key is found, with
exactly that pair at the returned node. -/
theorem findNode_complete {K V : Type} {cmp : K → K → Int} {beq : K → K → Bool}
    (laws : CmpLaws cmp) (hbeq : ∀ a b, beq a b = true ↔ cmp a b = 0) (key : K) :
    ∀ t : RBTree K V, SortedKeys cmp t → ∀ k0 v0, (k0, v0) ∈ entries t →
      cmp k0 key = 0 →
      ∃ c2 l2 r2, findNode cmp beq t key = some (RBTree.node c2 l2 k0 v0 r2)
  | RBTree.nil, _, k0, v0, hmem, _ => by simp [entries] at hmem
  | RBTree.node c l k v r, hsort, k0, v0, hmem, h0 => by
    obtain ⟨hsl, hsr, hlk, hkr, _⟩ := sortedKeys_node hsort
    rw [findNode]
    by_cases hb : beq k key
    · rw [if_pos hb]
      have hkk : cmp k k0 = 0 := by
        have h1 : cmp k key = 0 := (hbeq k key).mp hb
        have h2 : cmp key k0 = 0 := cmp_zero_symm laws h0
        rw [laws.eq_congr k key k0 h1]
        exact h2
      have hpw : List.Pairwise (fun p q : K × V => cmp p.1 q.1 < 0)
          (entries (RBTree.node c l k v r)) :=
        (sortedKeys_iff_entries cmp _).mp hsort
      have hkmem : (k, v) ∈ entries (RBTree.node c l k v r) := by
        simp [entries]
      have heq : (k, v) = (k0, v0) := by
        refine pairwise_eq_of_not_rel _ hpw (k, v) hkmem (k0, v0) hmem ?_ ?_
        · dsimp only []
          omega
        · dsimp only []
          have := cmp_zero_symm laws hkk
          omega
      obtain ⟨he1, he2⟩ := Prod.mk.injEq .. ▸ heq
      rw [← he1, ← he2]
      exact ⟨c, l, r, rfl⟩
    · rw [if_neg hb]
      simp only [entries, List.mem_append, List.mem_cons] at hmem
      rcases hmem with hmem | hmem | hmem
      · -- in the left subtree: the search cannot go right
        have hk0l : k0 ∈ keys l := List.mem_map_of_mem Prod.fst hmem
        have hlt : cmp k0 k < 0 := hlk k0 hk0l
        have hng : ¬cmp key k > 0 := by
          intro hgt
          have h1 : cmp k0 k = cmp key k := laws.eq_congr k0 key k h0
          have h2 := laws.asymm k0 k
          omega
        rw [if_neg hng]
        exact findNode_complete laws hbeq key l hsl k0 v0 hmem h0
      · -- the root pair itself: then `equals` would have accepted
        obtain ⟨he1, he2⟩ := Prod.mk.injEq .. ▸ hmem
        exfalso
        rw [he1] at h0
        exact absurd ((hbeq k key).mpr h0) hb
      · -- in the right subtree: the search goes right
        have hk0r : k0 ∈ keys r := List.mem_map_of_mem Prod.fst hmem
        have hgt2 : cmp k k0 < 0 := hkr k0 hk0r
        have hgt : cmp key k > 0 := by
          have h1 : cmp k0 k = cmp key k := laws.eq_congr k0 key k h0
          have h2 := laws.asymm k k0
          omega
        rw [if_pos hgt]
        exact findNode_complete laws hbeq key r hsr k0 v0 hmem h0


/-! ## deleteEntry: full specification on valid maps -/

theorem findNodeZ_complete {K V : Type} {cmp : K → K → Int} {beq : K → K → Bool}
    (laws : CmpLaws cmp) (hbeq : ∀ a b, beq a b = true ↔ cmp a b = 0) (key : K)
    (t : RBTree K V) (hsort : SortedKeys cmp t) (k0 : K) (v0 : V)
    (hmem : (k0, v0) ∈ entries t) (h0 : cmp k0 key = 0) :
    ∃ c2 l2 r2 p, findNodeZ cmp beq t key = some (RBTree.node c2 l2 k0 v0 r2, p) := by
  obtain ⟨c2, l2, r2, hfind⟩ := findNode_complete laws hbeq key t hsort k0 v0 hmem h0
  have hmap := findNodeZ_map_fst cmp beq key t
  rw [hfind] at hmap
  cases hz : findNodeZ cmp beq t key with
  | none => rw [hz] at hmap; cases hmap
  | some fp =>
    rw [hz] at hmap
    simp only [Option.map_some', Option.some.injEq] at hmap
    have hfp : fp = (RBTree.node c2 l2 k0 v0 r2, fp.2) := Prod.ext hmap rfl
    refine ⟨c2, l2, r2, fp.2, ?_⟩
    exact congrArg some hfp

/-- Full specification of a successful `deleteEntry` on a valid map: the call
succeeds, the stored pair whose key tests equal is removed (and nothing
else), the five red-black invariants are restored, no key comparing equal
to the deleted one remains, and `treeSize` is decremented. -/
theorem deleteEntry_spec {K V : Type} {cmp : K → K → Int} {beq : K → K → Bool}
    (laws : CmpLaws cmp) (hbeq : ∀ a b, beq a b = true ↔ cmp a b = 0)
    (m : atMap K V) (h : Nat) (hrb : IsRB m.treeRoot Color.black h)
    (hsort : SortedKeys cmp m.treeRoot) (key : K) (k0 : K) (v0 : V)
    (hmem : (k0, v0) ∈ entries m.treeRoot) (h0 : cmp k0 key = 0) :
    (deleteEntry cmp beq m key).1 = true ∧
    (∃ h2, IsRB (deleteEntry cmp beq m key).2.treeRoot Color.black h2) ∧
    (∃ A B, entries m.treeRoot = A ++ (k0, v0) :: B ∧
      entries (deleteEntry cmp beq m key).2.treeRoot = A ++ B) ∧
    SortedKeys cmp (deleteEntry cmp beq m key).2.treeRoot ∧
    (∀ pr ∈ entries (deleteEntry cmp beq m key).2.treeRoot, cmp pr.1 key ≠ 0) ∧
    (deleteEntry cmp beq m key).2.treeSize = m.treeSize - 1 := by
  obtain ⟨c2, l2, r2, p, hfz⟩ := findNodeZ_complete laws hbeq key m.treeRoot hsort k0 v0
    hmem h0
  unfold deleteEntry
  rw [hfz]
  dsimp only []
  have hplug := findNodeZ_plug cmp beq key m.treeRoot _ _ hfz
  obtain ⟨cf, hf, hfoc, hpath, hcf, hnil⟩ := findNodeZ_zipper cmp beq key m.treeRoot _ _
    Color.black h False hrb hfz (fun hcol => Color.noConfusion hcol)
  have hredok : cf = Color.red → headIsBlack p := by
    intro hcfr
    rcases hcf hcfr with hhb | hpe
    · exact hhb
    · have hfe := hnil hpe
      have h1 := hfoc.rootColor_eq
      rw [hfe] at h1
      have h2 := hrb.rootColor_eq
      rw [h2] at h1
      rw [← h1] at hcfr
      cases hcfr
  obtain ⟨cd, hd, hdel⟩ := deleteNode_rb _ p cf hf h hpath hfoc hredok
  obtain ⟨h3, hblk⟩ := hdel.setBlack
  have hentdel : entries (deleteNode (RBTree.node c2 l2 k0 v0 r2) p) =
      pathEL p ++ entries l2 ++ entries r2 ++ pathER p := entries_deleteNode l2 r2 c2 k0 v0 p
  have hent0 : entries m.treeRoot =
      (pathEL p ++ entries l2) ++ (k0, v0) :: (entries r2 ++ pathER p) := by
    rw [← hplug, entries_plug]
    simp [entries, List.append_assoc]
  have hentres : entries (setRootColor (deleteNode (RBTree.node c2 l2 k0 v0 r2) p)
      Color.black) = (pathEL p ++ entries l2) ++ (entries r2 ++ pathER p) := by
    rw [entries_setRootColor, hentdel]
    simp [List.append_assoc]
  have hsub : ((pathEL p ++ entries l2) ++ (entries r2 ++ pathER p)).Sublist
      ((pathEL p ++ entries l2) ++ (k0, v0) :: (entries r2 ++ pathER p)) :=
    List.Sublist.append_left (List.sublist_cons_self (k0, v0) _) _
  have hpw0 : List.Pairwise (fun pr qr : K × V => cmp pr.1 qr.1 < 0)
      (entries m.treeRoot) := (sortedKeys_iff_entries cmp _).mp hsort
  have hsort2 : SortedKeys cmp (setRootColor (deleteNode (RBTree.node c2 l2 k0 v0 r2) p)
      Color.black) := by
    rw [sortedKeys_iff_entries, hentres]
    refine List.Pairwise.sublist hsub ?_
    rw [← hent0]
    exact hpw0
  refine ⟨rfl, ⟨h3, hblk⟩, ⟨pathEL p ++ entries l2, entries r2 ++ pathER p, hent0, hentres⟩,
    hsort2, ?_, rfl⟩
  intro pr hpr hpr0
  rw [hentres] at hpr
  have hprk0 : cmp pr.1 k0 = 0 := by
    have h1 : cmp pr.1 k0 = cmp key k0 := laws.eq_congr pr.1 key k0 hpr0
    rw [h1]
    exact cmp_zero_symm laws h0
  rw [hent0] at hpw0
  rw [List.pairwise_append] at hpw0
  obtain ⟨hpwA, hpwB, hcross⟩ := hpw0
  rcases List.mem_append.mp hpr with hprA | hprB
  · have := hcross pr hprA (k0, v0) (List.mem_cons_self _ _)
    dsimp only [] at this
    omega
  · rw [List.pairwise_cons] at hpwB
    have := hpwB.1 pr hprB
    dsimp only [] at this
    have hsym := cmp_zero_symm laws hprk0
    omega


/-! ## Traversal, converters, and the integer instantiation -/

theorem fillLists_eq {K V : Type} :
    ∀ (t : RBTree K V) (kl : Option (List K)) (vl : Option (List V)),
      fillLists t kl vl =
        (kl.map (fun xs => xs ++ keys t), vl.map (fun xs => xs ++ vals t))
  | RBTree.nil, kl, vl => by
    cases kl <;> cases vl <;> simp [fillLists, keys, vals, entries]
  | RBTree.node c l k v r, kl, vl => by
    rw [fillLists, fillLists_eq l, fillLists_eq r]
    dsimp only []
    cases kl <;> cases vl <;>
      simp [keys, vals, entries, Option.map_map, Function.comp, List.append_assoc]

theorem entries_eq_nil_iff {K V : Type} (t : RBTree K V) :
    entries t = [] ↔ t = RBTree.nil := by
  cases t with
  | nil => simp [entries]
  | node c l k v r => simp [entries]

theorem leftmostNode_eq {K V : Type} :
    ∀ t : RBTree K V, leftmostNode t = (leftmostZ t).1
  | RBTree.nil => rfl
  | RBTree.node c RBTree.nil k v r => rfl
  | RBTree.node c (RBTree.node lc ll lk lv lr) k v r => by
    rw [leftmostNode, leftmostZ]
    dsimp only []
    exact leftmostNode_eq (RBTree.node lc ll lk lv lr)

/-- The three executable color/balance checkers amount to `IsRB` at black. -/
theorem isRB_of_invB {K V : Type} {t : RBTree K V} (hroot : rootBlackB t = true)
    (hnr : noRedRedB t = true) (hbh : (blackHeightOk t).isSome = true) :
    ∃ h, IsRB t Color.black h := by
  obtain ⟨h, hh⟩ := Option.isSome_iff_exists.mp hbh
  have h1 := isRB_of_checks t h hnr hh
  have h2 : rootColor t = Color.black := by
    refine rootColor_black_of_not_red ?_
    rwa [rootBlackB, Bool.not_eq_true'] at hroot
  rw [h2] at h1
  exact ⟨h, h1⟩

theorem uniqueKeysB_of_sorted {K V : Type} {cmp : K → K → Int} {beq : K → K → Bool}
    (laws : CmpLaws cmp) (hbeq : ∀ a b, beq a b = true ↔ cmp a b = 0)
    {t : RBTree K V} (hsort : SortedKeys cmp t) : uniqueKeysB beq t = true := by
  refine uniqueKeysB_of_pairwise (hsort.imp ?_)
  intro a b hab
  have hba : cmp b a > 0 := (laws.asymm a b).mp hab
  constructor
  · cases hb : beq a b with
    | false => rfl
    | true =>
      have := (hbeq a b).mp hb
      omega
  · cases hb : beq b a with
    | false => rfl
    | true =>
      have := (hbeq b a).mp hb
      omega

/-- `intCmp` satisfies the comparison laws. -/
theorem intCmp_laws : CmpLaws intCmp := by
  constructor
  · intro a b
    unfold intCmp
    split_ifs <;> omega
  · intro a b c h1 h2
    unfold intCmp at h1 h2 ⊢
    split_ifs at h1 h2 ⊢ <;> omega
  · intro a b c h
    unfold intCmp at h ⊢
    split_ifs at h ⊢ <;> omega

/-- `intBeq` agrees with `intCmp` equality. -/
theorem intBeq_iff : ∀ a b : Int, intBeq a b = true ↔ intCmp a b = 0 := by
  intro a b
  unfold intBeq intCmp
  split_ifs with h1 h2 <;> simp <;> omega


/-! ## Claims: search, duplicate insertion, warning branch, value change,
absent-key removal -/

/-- C3: on a map satisfying the BST-ordering and key-uniqueness invariants
(with an equality test that agrees with `compare`), `getValue` returns the
value stored under any present key, and for any key no stored key compares
equal to, `getValue` returns `NULL` and `containsKey` returns false. -/
theorem claim_C3 {K V : Type} {cmp : K → K → Int} {beq : K → K → Bool}
    (laws : CmpLaws cmp) (hbeq : ∀ a b, beq a b = true ↔ cmp a b = 0)
    (m : atMap K V) (hbst : isBSTB cmp m.treeRoot = true)
    (huni : uniqueKeysB beq m.treeRoot = true) (key : K) :
    (∀ k0 v0, (k0, v0) ∈ entries m.treeRoot → cmp k0 key = 0 →
      getValue cmp beq m key = some v0 ∧ containsKey cmp beq m key = true) ∧
    ((∀ pr ∈ entries m.treeRoot, cmp pr.1 key ≠ 0) →
      getValue cmp beq m key = none ∧ containsKey cmp beq m key = false) := by
  have hsort := sorted_of_bst_unique laws hbeq m.treeRoot hbst huni
  constructor
  · intro k0 v0 hmem h0
    obtain ⟨c2, l2, r2, hfind⟩ :=
      findNode_complete laws hbeq key m.treeRoot hsort k0 v0 hmem h0
    constructor
    · unfold getValue
      rw [hfind]
    · unfold containsKey
      rw [hfind]
      rfl
  · intro habsent
    have hfresh : ∀ x ∈ keys m.treeRoot, beq x key = false := by
      intro x hx
      obtain ⟨pr, hpr, hfst⟩ := List.mem_map.mp hx
      cases hb : beq x key with
      | false => rfl
      | true =>
        exfalso
        have h0 := (hbeq x key).mp hb
        rw [← hfst] at h0
        exact habsent pr hpr h0
    have hnone := findNode_none_of_fresh cmp beq key m.treeRoot hfresh
    constructor
    · unfold getValue
      rw [hnone]
    · unfold containsKey
      rw [hnone]
      rfl

/-- Witness for C3 on a concrete three-entry integer map: the present key 2
is found with its value, the absent key 5 is not. -/
theorem claim_C3_witness :
    getValue intCmp intBeq
      ⟨RBTree.node Color.black (RBTree.node Color.red RBTree.nil 1 (10 : Int) RBTree.nil)
        2 20 (RBTree.node Color.red RBTree.nil 3 30 RBTree.nil), 3⟩ 2 = some 20 ∧
    getValue intCmp intBeq
      ⟨RBTree.node Color.black (RBTree.node Color.red RBTree.nil 1 (10 : Int) RBTree.nil)
        2 20 (RBTree.node Color.red RBTree.nil 3 30 RBTree.nil), 3⟩ 5 = none := by
  constructor
  · exact ((claim_C3 intCmp_laws intBeq_iff
      ⟨RBTree.node Color.black (RBTree.node Color.red RBTree.nil 1 (10 : Int) RBTree.nil)
        2 20 (RBTree.node Color.red RBTree.nil 3 30 RBTree.nil), 3⟩
      (by decide) (by decide) 2).1 2 20 (by decide) (by decide)).1
  · exact ((claim_C3 intCmp_laws intBeq_iff
      ⟨RBTree.node Color.black (RBTree.node Color.red RBTree.nil 1 (10 : Int) RBTree.nil)
        2 20 (RBTree.node Color.red RBTree.nil 3 30 RBTree.nil), 3⟩
      (by decide) (by decide) 5).2 (by decide)).1

/-- C4: on a map satisfying the BST-ordering and key-uniqueness invariants
(with an equality test that agrees with `compare`), inserting a key that
tests equal to a stored key fails with `false` and returns the map — tree
structure, colors, entries and size — unchanged, and the warning flag is
not raised. -/
theorem claim_C4 {K V : Type} {cmp : K → K → Int} {beq : K → K → Bool}
    (laws : CmpLaws cmp) (hbeq : ∀ a b, beq a b = true ↔ cmp a b = 0)
    (m : atMap K V) (hbst : isBSTB cmp m.treeRoot = true)
    (huni : uniqueKeysB beq m.treeRoot = true) (key : K) (value : V)
    (hpresent : ∃ pr ∈ entries m.treeRoot, beq pr.1 key = true) :
    addEntry cmp beq m key value = (false, m, false) := by
  have hsort := sorted_of_bst_unique laws hbeq m.treeRoot hbst huni
  obtain ⟨⟨k0, v0⟩, hmem, hb⟩ := hpresent
  have h0 : cmp k0 key = 0 := (hbeq k0 key).mp hb
  obtain ⟨c2, l2, r2, hfind⟩ :=
    findNode_complete laws hbeq key m.treeRoot hsort k0 v0 hmem h0
  have hck : containsKey cmp beq m key = true := by
    unfold containsKey
    rw [hfind]
    rfl
  unfold addEntry
  rw [hck, if_pos rfl]

/-- Witness for C4: re-inserting key 2 into the concrete three-entry
integer map fails and changes nothing. -/
theorem claim_C4_witness :
    addEntry intCmp intBeq
      ⟨RBTree.node Color.black (RBTree.node Color.red RBTree.nil 1 (10 : Int) RBTree.nil)
        2 20 (RBTree.node Color.red RBTree.nil 3 30 RBTree.nil), 3⟩ 2 99 =
    (false,
      ⟨RBTree.node Color.black (RBTree.node Color.red RBTree.nil 1 (10 : Int) RBTree.nil)
        2 20 (RBTree.node Color.red RBTree.nil 3 30 RBTree.nil), 3⟩, false) :=
  claim_C4 intCmp_laws intBeq_iff
    ⟨RBTree.node Color.black (RBTree.node Color.red RBTree.nil 1 (10 : Int) RBTree.nil)
      2 20 (RBTree.node Color.red RBTree.nil 3 30 RBTree.nil), 3⟩
    (by decide) (by decide) 2 99 ⟨(2, 20), by decide, by decide⟩

/-- C7: assuming `equals` holds exactly when `compare` returns 0, the
key-collision warning inside the insertion descent never fires on a map
satisfying the BST-ordering and key-uniqueness invariants: `addEntry`
always reports the warning flag false, because a key that would trip the
equality test on the way down is already caught by the `containsKey`
pre-check. -/
theorem claim_C7 {K V : Type} {cmp : K → K → Int} {beq : K → K → Bool}
    (laws : CmpLaws cmp) (hbeq : ∀ a b, beq a b = true ↔ cmp a b = 0)
    (m : atMap K V) (hbst : isBSTB cmp m.treeRoot = true)
    (huni : uniqueKeysB beq m.treeRoot = true) (key : K) (value : V) :
    (addEntry cmp beq m key value).2.2 = false := by
  have hsort := sorted_of_bst_unique laws hbeq m.treeRoot hbst huni
  cases hck : containsKey cmp beq m key with
  | true =>
    unfold addEntry
    rw [hck, if_pos rfl]
  | false =>
    have hfresh : ∀ x ∈ keys m.treeRoot, beq key x = false := by
      intro x hx
      cases hb : beq key x with
      | false => rfl
      | true =>
        exfalso
        have h0 : cmp key x = 0 := (hbeq key x).mp hb
        have h0s : cmp x key = 0 := cmp_zero_symm laws h0
        obtain ⟨pr, hpr, hfst⟩ := List.mem_map.mp hx
        have hmem2 : (x, pr.2) ∈ entries m.treeRoot := by
          rw [← hfst]
          exact hpr
        obtain ⟨c2, l2, r2, hfind⟩ :=
          findNode_complete laws hbeq key m.treeRoot hsort x pr.2 hmem2 h0s
        unfold containsKey at hck
        rw [hfind] at hck
        cases hck
    unfold addEntry
    rw [hck, if_neg Bool.false_ne_true]
    cases hroot : m.treeRoot with
    | nil => rfl
    | node c l k v r =>
      dsimp only []
      rw [hroot] at hfresh
      exact insertDescent_no_warn cmp beq key (RBTree.node c l k v r) hfresh

/-- Witness for C7: inserting the fresh key 4 into the concrete map leaves
the warning flag false. -/
theorem claim_C7_witness :
    (addEntry intCmp intBeq
      ⟨RBTree.node Color.black (RBTree.node Color.red RBTree.nil 1 (10 : Int) RBTree.nil)
        2 20 (RBTree.node Color.red RBTree.nil 3 30 RBTree.nil), 3⟩ 4 99).2.2 = false :=
  claim_C7 intCmp_laws intBeq_iff
    ⟨RBTree.node Color.black (RBTree.node Color.red RBTree.nil 1 (10 : Int) RBTree.nil)
      2 20 (RBTree.node Color.red RBTree.nil 3 30 RBTree.nil), 3⟩
    (by decide) (by decide) 4 99

/-- C8: on a map satisfying the BST-ordering and key-uniqueness invariants
(with an equality test that agrees with `compare`): if the key is present,
`changeValue` returns the previously stored value and stores the new value
in that node (same position, same size, all other entries untouched); if no
stored key compares equal to it, `changeValue` returns `NULL` and the map —
including the stored values — is unchanged. -/
theorem claim_C8 {K V : Type} {cmp : K → K → Int} {beq : K → K → Bool}
    (laws : CmpLaws cmp) (hbeq : ∀ a b, beq a b = true ↔ cmp a b = 0)
    (m : atMap K V) (hbst : isBSTB cmp m.treeRoot = true)
    (huni : uniqueKeysB beq m.treeRoot = true) (key : K) (newValue : V) :
    (∀ k0 v0, (k0, v0) ∈ entries m.treeRoot → cmp k0 key = 0 →
      ∃ m2, changeValue cmp beq m key newValue = (some v0, m2) ∧
        m2.treeSize = m.treeSize ∧
        ∃ A B, entries m.treeRoot = A ++ (k0, v0) :: B ∧
          entries m2.treeRoot = A ++ (k0, newValue) :: B) ∧
    ((∀ pr ∈ entries m.treeRoot, cmp pr.1 key ≠ 0) →
      changeValue cmp beq m key newValue = (none, m)) := by
  have hsort := sorted_of_bst_unique laws hbeq m.treeRoot hbst huni
  constructor
  · intro k0 v0 hmem h0
    obtain ⟨c2, l2, r2, p, hfz⟩ :=
      findNodeZ_complete laws hbeq key m.treeRoot hsort k0 v0 hmem h0
    refine ⟨⟨plug (RBTree.node c2 l2 k0 newValue r2) p, m.treeSize⟩, ?_, rfl, ?_⟩
    · unfold changeValue
      rw [hfz]
    · have hplug := findNodeZ_plug cmp beq key m.treeRoot _ _ hfz
      refine ⟨pathEL p ++ entries l2, entries r2 ++ pathER p, ?_, ?_⟩
      · rw [← hplug, entries_plug]
        simp [entries, List.append_assoc]
      · rw [entries_plug]
        simp [entries, List.append_assoc]
  · intro habsent
    have hfresh : ∀ x ∈ keys m.treeRoot, beq x key = false := by
      intro x hx
      obtain ⟨pr, hpr, hfst⟩ := List.mem_map.mp hx
      cases hb : beq x key with
      | false => rfl
      | true =>
        exfalso
        have h0 := (hbeq x key).mp hb
        rw [← hfst] at h0
        exact habsent pr hpr h0
    have hnone := findNode_none_of_fresh cmp beq key m.treeRoot hfresh
    have hmap := findNodeZ_map_fst cmp beq key m.treeRoot
    rw [hnone] at hmap
    have hz : findNodeZ cmp beq m.treeRoot key = none := Option.map_eq_none'.mp hmap
    unfold changeValue
    rw [hz]

/-- Witness for C8: changing the value under the present key 2 returns the
old value 20; changing under the absent key 5 returns `NULL` and leaves the
map unchanged. -/
theorem claim_C8_witness :
    (changeValue intCmp intBeq
      ⟨RBTree.node Color.black (RBTree.node Color.red RBTree.nil 1 (10 : Int) RBTree.nil)
        2 20 (RBTree.node Color.red RBTree.nil 3 30 RBTree.nil), 3⟩ 2 99).1 = some 20 ∧
    changeValue intCmp intBeq
      ⟨RBTree.node Color.black (RBTree.node Color.red RBTree.nil 1 (10 : Int) RBTree.nil)
        2 20 (RBTree.node Color.red RBTree.nil 3 30 RBTree.nil), 3⟩ 5 99 =
    (none,
      ⟨RBTree.node Color.black (RBTree.node Color.red RBTree.nil 1 (10 : Int) RBTree.nil)
        2 20 (RBTree.node Color.red RBTree.nil 3 30 RBTree.nil), 3⟩) := by
  constructor
  · obtain ⟨m2, he, _, _⟩ := ((claim_C8 intCmp_laws intBeq_iff
      ⟨RBTree.node Color.black (RBTree.node Color.red RBTree.nil 1 (10 : Int) RBTree.nil)
        2 20 (RBTree.node Color.red RBTree.nil 3 30 RBTree.nil), 3⟩
      (by decide) (by decide) 2 99).1 2 20 (by decide) (by decide))
    rw [he]
  · exact (claim_C8 intCmp_laws intBeq_iff
      ⟨RBTree.node Color.black (RBTree.node Color.red RBTree.nil 1 (10 : Int) RBTree.nil)
        2 20 (RBTree.node Color.red RBTree.nil 3 30 RBTree.nil), 3⟩
      (by decide) (by decide) 5 99).2 (by decide)

/-- C9: for any key that no stored key tests equal to, `deleteEntry`
returns `false` and `removeEntry` returns `NULL`, and both return the map —
tree structure, colors, entries and size — entirely unchanged. -/
theorem claim_C9 {K V : Type} (cmp : K → K → Int) (beq : K → K → Bool)
    (m : atMap K V) (key : K)
    (habsent : ∀ pr ∈ entries m.treeRoot, beq pr.1 key = false) :
    deleteEntry cmp beq m key = (false, m) ∧ removeEntry cmp beq m key = (none, m) := by
  have hfresh : ∀ x ∈ keys m.treeRoot, beq x key = false := by
    intro x hx
    obtain ⟨pr, hpr, hfst⟩ := List.mem_map.mp hx
    rw [← hfst]
    exact habsent pr hpr
  have hnone := findNode_none_of_fresh cmp beq key m.treeRoot hfresh
  have hmap := findNodeZ_map_fst cmp beq key m.treeRoot
  rw [hnone] at hmap
  have hz : findNodeZ cmp beq m.treeRoot key = none := Option.map_eq_none'.mp hmap
  constructor
  · unfold deleteEntry
    rw [hz]
  · unfold removeEntry
    rw [hz]

/-- Witness for C9: deleting or removing the absent key 7 from the concrete
map is a no-op. -/
theorem claim_C9_witness :
    deleteEntry intCmp intBeq
      ⟨RBTree.node Color.black (RBTree.node Color.red RBTree.nil 1 (10 : Int) RBTree.nil)
        2 20 (RBTree.node Color.red RBTree.nil 3 30 RBTree.nil), 3⟩ 7 =
    (false,
      ⟨RBTree.node Color.black (RBTree.node Color.red RBTree.nil 1 (10 : Int) RBTree.nil)
        2 20 (RBTree.node Color.red RBTree.nil 3 30 RBTree.nil), 3⟩) ∧
    removeEntry intCmp intBeq
      ⟨RBTree.node Color.black (RBTree.node Color.red RBTree.nil 1 (10 : Int) RBTree.nil)
        2 20 (RBTree.node Color.red RBTree.nil 3 30 RBTree.nil), 3⟩ 7 =
    (none,
      ⟨RBTree.node Color.black (RBTree.node Color.red RBTree.nil 1 (10 : Int) RBTree.nil)
        2 20 (RBTree.node Color.red RBTree.nil 3 30 RBTree.nil), 3⟩) :=
  claim_C9 intCmp intBeq
    ⟨RBTree.node Color.black (RBTree.node Color.red RBTree.nil 1 (10 : Int) RBTree.nil)
      2 20 (RBTree.node Color.red RBTree.nil 3 30 RBTree.nil), 3⟩ 7 (by decide)


/-! ## Claims: sorted traversal -/

/-- C5: on a map satisfying the BST-ordering and key-uniqueness invariants
whose tracked size agrees with its entry count, `getSortedList` called with
two empty output lists fills them with the keys in strictly ascending
`compare` order and the matching values, each list exactly `treeSize` long,
and the map-inconsistency diagnostic does not fire. -/
theorem claim_C5 {K V : Type} {cmp : K → K → Int} {beq : K → K → Bool}
    (laws : CmpLaws cmp) (hbeq : ∀ a b, beq a b = true ↔ cmp a b = 0)
    (m : atMap K V) (hbst : isBSTB cmp m.treeRoot = true)
    (huni : uniqueKeysB beq m.treeRoot = true)
    (hsz : m.treeSize = (entries m.treeRoot).length) :
    ∃ ks vs, getSortedList m (some []) (some []) = ((some ks, some vs), false) ∧
      List.Pairwise (fun a b => cmp a b < 0) ks ∧
      ks.length = m.treeSize ∧ vs.length = m.treeSize := by
  have hsort := sorted_of_bst_unique laws hbeq m.treeRoot hbst huni
  by_cases h0 : m.treeSize = 0
  · refine ⟨[], [], ?_, List.Pairwise.nil, h0.symm, h0.symm⟩
    unfold getSortedList
    rw [if_pos h0]
  · refine ⟨keys m.treeRoot, vals m.treeRoot, ?_, hsort, ?_, ?_⟩
    · unfold getSortedList
      rw [if_neg h0, fillLists_eq]
      have hkl : (keys m.treeRoot).length = m.treeSize := by
        rw [hsz]
        exact List.length_map _ _
      simp only [Option.map_some', List.nil_append, Option.isSome_some, if_pos, optLen, hkl,
        bne_self_eq_false]
    · rw [hsz]
      exact List.length_map _ _
    · rw [hsz]
      exact List.length_map _ _

/-- Witness for C5: the sorted traversal of the concrete three-entry map
yields both lists of length 3 with strictly ascending keys. -/
theorem claim_C5_witness :
    ∃ ks vs,
      getSortedList
        (⟨RBTree.node Color.black (RBTree.node Color.red RBTree.nil 1 (10 : Int) RBTree.nil)
          2 20 (RBTree.node Color.red RBTree.nil 3 30 RBTree.nil), 3⟩ : atMap Int Int)
        (some []) (some []) = ((some ks, some vs), false) ∧
      List.Pairwise (fun a b => intCmp a b < 0) ks ∧
      ks.length = 3 ∧ vs.length = 3 :=
  claim_C5 intCmp_laws intBeq_iff
    ⟨RBTree.node Color.black (RBTree.node Color.red RBTree.nil 1 (10 : Int) RBTree.nil)
      2 20 (RBTree.node Color.red RBTree.nil 3 30 RBTree.nil), 3⟩
    (by decide) (by decide) (by decide)

/-- C10: `getSortedList` only appends: every caller-supplied list comes back
as itself extended by exactly `treeSize` new elements (a `NULL` list stays
`NULL`), and on an empty map the call returns immediately, appending
nothing and firing no diagnostic. -/
theorem claim_C10 {K V : Type} (m : atMap K V)
    (hsz : m.treeSize = (entries m.treeRoot).length)
    (keyList : Option (List K)) (valueList : Option (List V)) :
    (∀ xs, keyList = some xs →
      ∃ ys, (getSortedList m keyList valueList).1.1 = some (xs ++ ys) ∧
        ys.length = m.treeSize) ∧
    (∀ xs, valueList = some xs →
      ∃ ys, (getSortedList m keyList valueList).1.2 = some (xs ++ ys) ∧
        ys.length = m.treeSize) ∧
    (keyList = none → (getSortedList m keyList valueList).1.1 = none) ∧
    (valueList = none → (getSortedList m keyList valueList).1.2 = none) ∧
    (m.treeSize = 0 → getSortedList m keyList valueList = ((keyList, valueList), false)) := by
  by_cases h0 : m.treeSize = 0
  · unfold getSortedList
    rw [if_pos h0]
    refine ⟨?_, ?_, ?_, ?_, fun _ => rfl⟩
    · intro xs hxs
      refine ⟨[], ?_, by rw [h0]; rfl⟩
      rw [hxs]
      simp
    · intro xs hxs
      refine ⟨[], ?_, by rw [h0]; rfl⟩
      rw [hxs]
      simp
    · intro hn
      rw [hn]
    · intro hn
      rw [hn]
  · unfold getSortedList
    rw [if_neg h0, fillLists_eq]
    have hkl : (keys m.treeRoot).length = m.treeSize := by
      rw [hsz]
      exact List.length_map _ _
    have hvl : (vals m.treeRoot).length = m.treeSize := by
      rw [hsz]
      exact List.length_map _ _
    refine ⟨?_, ?_, ?_, ?_, fun hc => absurd hc h0⟩
    · intro xs hxs
      rw [hxs]
      exact ⟨keys m.treeRoot, rfl, hkl⟩
    · intro xs hxs
      rw [hxs]
      exact ⟨vals m.treeRoot, rfl, hvl⟩
    · intro hn
      rw [hn]
      rfl
    · intro hn
      rw [hn]
      rfl

/-- Witness for C10 on the concrete three-entry map with a pre-filled key
list and a `NULL` value list, plus the empty-map early return. -/
theorem claim_C10_witness :
    (∃ ys, (getSortedList
      (⟨RBTree.node Color.black (RBTree.node Color.red RBTree.nil 1 (10 : Int) RBTree.nil)
        2 20 (RBTree.node Color.red RBTree.nil 3 30 RBTree.nil), 3⟩ : atMap Int Int)
      (some [100]) none).1.1 = some ([100] ++ ys) ∧ ys.length = 3) ∧
    getSortedList (atMap.empty : atMap Int Int) (some [100]) (some [7]) =
      ((some [100], some [7]), false) := by
  constructor
  · exact (claim_C10
      ⟨RBTree.node Color.black (RBTree.node Color.red RBTree.nil 1 (10 : Int) RBTree.nil)
        2 20 (RBTree.node Color.red RBTree.nil 3 30 RBTree.nil), 3⟩
      (by decide) (some [100]) none).1 [100] rfl
  · exact (claim_C10 (atMap.empty : atMap Int Int) (by decide)
      (some [100]) (some [7])).2.2.2.2 rfl


/-! ## Claim: in-order successor and the two-children removal case -/

/-- C6: for a node with two non-empty children in a tree satisfying the
BST-ordering invariant, `getInorderSuccessor` returns exactly the leftmost
node of the right subtree, which exists and has no left child (so at most
one child), and the two-children case of both `deleteNode` and `removeNode`
reduces — after swapping the key/value pair with that successor — to a
single recursive call on the successor node, which has an empty left child
and therefore falls into the zero- or one-child case; termination of the
removal follows (and is certified by these functions being total). -/
theorem claim_C6 {K V : Type} (cmp : K → K → Int) (c : Color) (l r : RBTree K V)
    (k : K) (v : V) (hl : l ≠ RBTree.nil) (hr : r ≠ RBTree.nil)
    (hbst : isBSTB cmp (RBTree.node c l k v r) = true) (path : Path K V) :
    ∃ sc sk sv sr sp,
      getInorderSuccessor (RBTree.node c l k v r) =
        some (RBTree.node sc RBTree.nil sk sv sr) ∧
      leftmostNode r = RBTree.node sc RBTree.nil sk sv sr ∧
      leftmostZ r = (RBTree.node sc RBTree.nil sk sv sr, sp) ∧
      deleteNode (RBTree.node c l k v r) path =
        deleteNode (RBTree.node sc RBTree.nil k v sr)
          (sp ++ ⟨Dir.right, c, sk, sv, l⟩ :: path) ∧
      removeNode (RBTree.node c l k v r) path =
        removeNode (RBTree.node sc RBTree.nil k v sr)
          (sp ++ ⟨Dir.right, c, sk, sv, l⟩ :: path) := by
  cases l with
  | nil => exact absurd rfl hl
  | node lc ll lk lv lr =>
    cases r with
    | nil => exact absurd rfl hr
    | node rc rl rk rv rr =>
      obtain ⟨sc, sk, sv, sr, hsh⟩ := leftmostZ_shape rl rc rk rv rr
      have hlm : leftmostZ (RBTree.node rc rl rk rv rr) =
          (RBTree.node sc RBTree.nil sk sv sr,
            (leftmostZ (RBTree.node rc rl rk rv rr)).2) :=
        Prod.ext hsh rfl
      have hln : leftmostNode (RBTree.node rc rl rk rv rr) =
          RBTree.node sc RBTree.nil sk sv sr := by
        rw [leftmostNode_eq, hsh]
      refine ⟨sc, sk, sv, sr, (leftmostZ (RBTree.node rc rl rk rv rr)).2,
        ?_, hln, hlm, ?_, ?_⟩
      · have hgs : getInorderSuccessor
            (RBTree.node c (RBTree.node lc ll lk lv lr) k v
              (RBTree.node rc rl rk rv rr)) =
            some (leftmostNode (RBTree.node rc rl rk rv rr)) := rfl
        rw [hgs, hln]
      · rw [deleteNode, hlm]
      · rw [removeNode, hlm]

/-- Witness for C6 on a concrete subtree with two children: the successor
of the root 2 is the node with key 4, and both removal functions take the
one recursive step to it. -/
theorem claim_C6_witness :
    ∃ sc sk sv sr sp,
      getInorderSuccessor
        (RBTree.node Color.black (RBTree.node Color.red RBTree.nil 1 (10 : Int) RBTree.nil)
          (2 : Int) 20
          (RBTree.node Color.black (RBTree.node Color.red RBTree.nil 4 40 RBTree.nil)
            5 50 RBTree.nil)) =
        some (RBTree.node sc RBTree.nil sk sv sr) ∧
      leftmostNode
        (RBTree.node Color.black (RBTree.node Color.red RBTree.nil 4 (40 : Int) RBTree.nil)
          (5 : Int) 50 RBTree.nil) = RBTree.node sc RBTree.nil sk sv sr ∧
      leftmostZ
        (RBTree.node Color.black (RBTree.node Color.red RBTree.nil 4 (40 : Int) RBTree.nil)
          (5 : Int) 50 RBTree.nil) = (RBTree.node sc RBTree.nil sk sv sr, sp) ∧
      deleteNode
        (RBTree.node Color.black (RBTree.node Color.red RBTree.nil 1 (10 : Int) RBTree.nil)
          (2 : Int) 20
          (RBTree.node Color.black (RBTree.node Color.red RBTree.nil 4 40 RBTree.nil)
            5 50 RBTree.nil)) [] =
        deleteNode (RBTree.node sc RBTree.nil 2 20 sr)
          (sp ++ ⟨Dir.right, Color.black, sk, sv,
            RBTree.node Color.red RBTree.nil 1 10 RBTree.nil⟩ :: []) ∧
      removeNode
        (RBTree.node Color.black (RBTree.node Color.red RBTree.nil 1 (10 : Int) RBTree.nil)
          (2 : Int) 20
          (RBTree.node Color.black (RBTree.node Color.red RBTree.nil 4 40 RBTree.nil)
            5 50 RBTree.nil)) [] =
        removeNode (RBTree.node sc RBTree.nil 2 20 sr)
          (sp ++ ⟨Dir.right, Color.black, sk, sv,
            RBTree.node Color.red RBTree.nil 1 10 RBTree.nil⟩ :: []) :=
  claim_C6 intCmp Color.black
    (RBTree.node Color.red RBTree.nil 1 (10 : Int) RBTree.nil)
    (RBTree.node Color.black (RBTree.node Color.red RBTree.nil 4 40 RBTree.nil)
      5 50 RBTree.nil)
    2 20 (by decide) (by decide) (by decide) []


/-! ## Claims: insertion sequences and deletion on valid maps -/

/-- C1: starting from the empty map, after inserting any prefix of a
sequence of pairs whose keys are pairwise distinct under both `compare` and
`equals`, the tree satisfies all five red-black invariants — BST ordering,
key uniqueness, black root, no red-red parent/child pair, equal black
height on every root-to-empty path — and the tracked size equals the number
of keys inserted so far. -/
theorem claim_C1 {K V : Type} {cmp : K → K → Int} {beq : K → K → Bool}
    (laws : CmpLaws cmp) (kvs : List (K × V))
    (hdist : kvs.Pairwise (fun p q => cmp p.1 q.1 ≠ 0 ∧ cmp q.1 p.1 ≠ 0 ∧
      beq p.1 q.1 = false ∧ beq q.1 p.1 = false))
    (i : Nat) (hi : i ≤ kvs.length) :
    isBSTB cmp (applyAdds cmp beq atMap.empty (kvs.take i)).treeRoot = true ∧
    uniqueKeysB beq (applyAdds cmp beq atMap.empty (kvs.take i)).treeRoot = true ∧
    rootBlackB (applyAdds cmp beq atMap.empty (kvs.take i)).treeRoot = true ∧
    noRedRedB (applyAdds cmp beq atMap.empty (kvs.take i)).treeRoot = true ∧
    (∃ h, blackHeightOk (applyAdds cmp beq atMap.empty (kvs.take i)).treeRoot = some h) ∧
    (applyAdds cmp beq atMap.empty (kvs.take i)).treeSize = i := by
  obtain ⟨⟨h, hrb⟩, hsort, hperm, hsize⟩ := applyAdds_take laws kvs hdist i hi
  refine ⟨isBSTB_of_sorted laws _ hsort, ?_, isRB_rootBlackB hrb, isRB_noRedRedB hrb,
    ⟨h, isRB_blackHeightOk hrb⟩, hsize⟩
  refine uniqueKeysB_of_pairwise ?_
  have hkv : (kvs.take i).Pairwise
      (fun p q : K × V => beq p.1 q.1 = false ∧ beq q.1 p.1 = false) :=
    (List.Pairwise.sublist (List.take_sublist i kvs) hdist).imp
      (fun hpq => ⟨hpq.2.2.1, hpq.2.2.2⟩)
  have hent := (List.Perm.pairwise_iff
    (fun hpq => ⟨hpq.2, hpq.1⟩) hperm).mpr hkv
  unfold keys
  exact List.pairwise_map.mpr hent

/-- Witness for C1: inserting 5, 3, 8 into the empty integer map yields a
tree passing all five invariant checkers with size 3. -/
theorem claim_C1_witness :
    isBSTB intCmp (applyAdds intCmp intBeq atMap.empty
      ([((5 : Int), (50 : Int)), (3, 30), (8, 80)].take 3)).treeRoot = true ∧
    uniqueKeysB intBeq (applyAdds intCmp intBeq atMap.empty
      ([((5 : Int), (50 : Int)), (3, 30), (8, 80)].take 3)).treeRoot = true ∧
    rootBlackB (applyAdds intCmp intBeq atMap.empty
      ([((5 : Int), (50 : Int)), (3, 30), (8, 80)].take 3)).treeRoot = true ∧
    noRedRedB (applyAdds intCmp intBeq atMap.empty
      ([((5 : Int), (50 : Int)), (3, 30), (8, 80)].take 3)).treeRoot = true ∧
    (∃ h, blackHeightOk (applyAdds intCmp intBeq atMap.empty
      ([((5 : Int), (50 : Int)), (3, 30), (8, 80)].take 3)).treeRoot = some h) ∧
    (applyAdds intCmp intBeq atMap.empty
      ([((5 : Int), (50 : Int)), (3, 30), (8, 80)].take 3)).treeSize = 3 :=
  claim_C1 intCmp_laws [((5 : Int), (50 : Int)), (3, 30), (8, 80)]
    (by decide) 3 (by decide)

/-- C2: on a map passing all five invariant checkers, whose size agrees
with its entry count, and holding a key that tests equal to the searched
key: `deleteEntry` succeeds, a subsequent `getValue`/`containsKey` of the
same key reports it absent, the size drops by exactly one (and still counts
the entries), and all five invariants hold afterwards. -/
theorem claim_C2 {K V : Type} {cmp : K → K → Int} {beq : K → K → Bool}
    (laws : CmpLaws cmp) (hbeq : ∀ a b, beq a b = true ↔ cmp a b = 0)
    (m : atMap K V) (key : K)
    (hbst : isBSTB cmp m.treeRoot = true) (huni : uniqueKeysB beq m.treeRoot = true)
    (hroot : rootBlackB m.treeRoot = true) (hnrr : noRedRedB m.treeRoot = true)
    (hbh : (blackHeightOk m.treeRoot).isSome = true)
    (hsz : m.treeSize = (entries m.treeRoot).length)
    (hpresent : ∃ pr ∈ entries m.treeRoot, beq pr.1 key = true) :
    (deleteEntry cmp beq m key).1 = true ∧
    getValue cmp beq (deleteEntry cmp beq m key).2 key = none ∧
    containsKey cmp beq (deleteEntry cmp beq m key).2 key = false ∧
    (deleteEntry cmp beq m key).2.treeSize + 1 = m.treeSize ∧
    isBSTB cmp (deleteEntry cmp beq m key).2.treeRoot = true ∧
    uniqueKeysB beq (deleteEntry cmp beq m key).2.treeRoot = true ∧
    rootBlackB (deleteEntry cmp beq m key).2.treeRoot = true ∧
    noRedRedB (deleteEntry cmp beq m key).2.treeRoot = true ∧
    (∃ h2, blackHeightOk (deleteEntry cmp beq m key).2.treeRoot = some h2) ∧
    (deleteEntry cmp beq m key).2.treeSize =
      (entries (deleteEntry cmp beq m key).2.treeRoot).length := by
  obtain ⟨h, hrb⟩ := isRB_of_invB hroot hnrr hbh
  have hsort := sorted_of_bst_unique laws hbeq m.treeRoot hbst huni
  obtain ⟨⟨k0, v0⟩, hmem, hb⟩ := hpresent
  have h0 : cmp k0 key = 0 := (hbeq k0 key).mp hb
  obtain ⟨hsucc, ⟨h2, hrb2⟩, ⟨A, B, hold, hnew⟩, hsort2, hnokey, hsize2⟩ :=
    deleteEntry_spec laws hbeq m h hrb hsort key k0 v0 hmem h0
  set m2 := (deleteEntry cmp beq m key).2 with hm2
  have hlenold : (entries m.treeRoot).length = A.length + B.length + 1 := by
    rw [hold]
    simp only [List.length_append, List.length_cons]
    omega
  have hlennew : (entries m2.treeRoot).length = A.length + B.length := by
    rw [hnew]
    simp
  have hfresh2 : ∀ x ∈ keys m2.treeRoot, beq x key = false := by
    intro x hx
    obtain ⟨pr, hpr, hfst⟩ := List.mem_map.mp hx
    cases hbx : beq x key with
    | false => rfl
    | true =>
      exfalso
      have h0x := (hbeq x key).mp hbx
      rw [← hfst] at h0x
      exact hnokey pr hpr h0x
  have hnone := findNode_none_of_fresh cmp beq key m2.treeRoot hfresh2
  refine ⟨hsucc, ?_, ?_, ?_, isBSTB_of_sorted laws _ hsort2,
    uniqueKeysB_of_sorted laws hbeq hsort2, isRB_rootBlackB hrb2,
    isRB_noRedRedB hrb2, ⟨h2, isRB_blackHeightOk hrb2⟩, ?_⟩
  · unfold getValue
    rw [hnone]
  · unfold containsKey
    rw [hnone]
    rfl
  · omega
  · omega

/-- Witness for C2: deleting the present key 2 from a concrete valid
three-entry map succeeds, makes key 2 absent, and drops the size to 2. -/
theorem claim_C2_witness :
    (deleteEntry intCmp intBeq
      ⟨RBTree.node Color.black (RBTree.node Color.black RBTree.nil 1 (10 : Int) RBTree.nil)
        2 20 (RBTree.node Color.black RBTree.nil 3 30 RBTree.nil), 3⟩ 2).1 = true ∧
    getValue intCmp intBeq
      (deleteEntry intCmp intBeq
        ⟨RBTree.node Color.black (RBTree.node Color.black RBTree.nil 1 (10 : Int) RBTree.nil)
          2 20 (RBTree.node Color.black RBTree.nil 3 30 RBTree.nil), 3⟩ 2).2 2 = none ∧
    (deleteEntry intCmp intBeq
      ⟨RBTree.node Color.black (RBTree.node Color.black RBTree.nil 1 (10 : Int) RBTree.nil)
        2 20 (RBTree.node Color.black RBTree.nil 3 30 RBTree.nil), 3⟩ 2).2.treeSize + 1 = 3 ∧
    noRedRedB (deleteEntry intCmp intBeq
      ⟨RBTree.node Color.black (RBTree.node Color.black RBTree.nil 1 (10 : Int) RBTree.nil)
        2 20 (RBTree.node Color.black RBTree.nil 3 30 RBTree.nil), 3⟩ 2).2.treeRoot = true := by
  have hc := claim_C2 intCmp_laws intBeq_iff
    ⟨RBTree.node Color.black (RBTree.node Color.black RBTree.nil 1 (10 : Int) RBTree.nil)
      2 20 (RBTree.node Color.black RBTree.nil 3 30 RBTree.nil), 3⟩ 2
    (by decide) (by decide) (by decide) (by decide) (by decide) (by decide)
    ⟨(2, 20), by decide, by decide⟩
  exact ⟨hc.1, hc.2.1, hc.2.2.2.1, hc.2.2.2.2.2.2.2.1⟩

end Atlas
